import Mathlib

/-!
Verification model of the podcast script-to-audio pipeline:
`audio-podcast-workflow.py` (script parsing and synthesis driver) and
`cutting-podcast-workflow.py` (clip assembly).

Python strings are modelled as Lean `String`/`List Char`.  Character classes
of the Python regexes are modelled over ASCII: Python's `\w`, `\d`, `str.strip`,
`str.lower` additionally treat some non-ASCII code points specially, which is
irrelevant for every claim settled here (all inputs of the claims are ASCII) and
is noted where it matters.
-/

namespace Podcast

/-- Characters stripped by Python `str.strip()` (ASCII whitespace). -/
def isPySpace (c : Char) : Bool :=
  c = ' ' || c = '\t' || c = '\n' || c = '\r' || c = '\x0b' || c = '\x0c'

/-- Model of Python `str.strip()`: drop leading and trailing whitespace. -/
def pyStrip (s : String) : String :=
  String.mk (((s.toList.dropWhile isPySpace).reverse.dropWhile isPySpace).reverse)

/-- Model of Python `file.readlines()`: split after each newline, keeping it. -/
def readlinesAux : List Char → List Char → List (List Char)
  | cur, [] => if cur = [] then [] else [cur.reverse]
  | cur, c :: rest =>
    if c = '\n' then (c :: cur).reverse :: readlinesAux [] rest
    else readlinesAux (c :: cur) rest

/-- Model of Python `file.readlines()` on the whole script text. -/
def readlines (s : String) : List String :=
  (readlinesAux [] s.toList).map String.mk

/-- The regex class `\d` restricted to ASCII (`0`-`9`). -/
def isDigitCh (c : Char) : Bool := 48 ≤ c.toNat && c.toNat ≤ 57

/-- The regex class `A`-`Z`. -/
def isUpperCh (c : Char) : Bool := 65 ≤ c.toNat && c.toNat ≤ 90

/-- The regex class `a`-`z`. -/
def isLowerCh (c : Char) : Bool := 97 ≤ c.toNat && c.toNat ≤ 122

/-- The regex class `[a-zA-Z]`. -/
def isLetterCh (c : Char) : Bool := isUpperCh c || isLowerCh c

/-- The regex class `\w` restricted to ASCII: `[A-Za-z0-9_]`.
Python's Unicode `\w` additionally matches non-ASCII word characters. -/
def isWordCh (c : Char) : Bool := isLetterCh c || isDigitCh c || c = '_'

/-- Boolean prefix test on character lists (model of an anchored `re.match`). -/
def startsWithCh : List Char → List Char → Bool
  | [], _ => true
  | _ :: _, [] => false
  | a :: pat, b :: s => a = b && startsWithCh pat s

/-- Model of matching `^\[([^\]]+)\]:` against a (already stripped) character
list: `[`, then a maximal nonempty run of non-`]` characters (the greedy
`[^\]]+` capture), then `]:`; returns the capture and the rest of the line
(the `(.*)` capture of the lines-per-speaker regex). -/
def splitTag (cs : List Char) : Option (List Char × List Char) :=
  if startsWithCh ['['] cs then
    if cs.tail.takeWhile (fun c => c ≠ ']') = [] then none
    else if startsWithCh [']', ':'] (cs.tail.dropWhile (fun c => c ≠ ']')) then
      some (cs.tail.takeWhile (fun c => c ≠ ']'),
        (cs.tail.dropWhile (fun c => c ≠ ']')).drop 2)
    else none
  else none

/-- Tag match on a raw script line: the line is stripped first
(`pattern.match(line.strip())` in `_extract_speaker_names` and
`_extract_lines_per_speaker`). -/
def matchTag (line : String) : Option (String × String) :=
  (splitTag (pyStrip line).toList).map (fun p => (String.mk p.1, String.mk p.2))

/-- The (speaker, raw spoken text) pairs of all tag-matching lines, in script
order. -/
def taggedPairs (lines : List String) : List (String × String) :=
  lines.filterMap matchTag

/-- Lexicographic comparison of character lists by code point, the order
Python uses to compare strings. -/
def lexLe : List Char → List Char → Bool
  | [], _ => true
  | _ :: _, [] => false
  | a :: as, b :: bs => a.toNat < b.toNat || (a = b && lexLe as bs)

/-- Python's `≤` on strings: lexicographic by code point. -/
def strLe (s t : String) : Bool := lexLe s.toList t.toList

/-- Model of `_extract_speaker_names`: the distinct tag captures, sorted
(Python `sorted(set(...))`). -/
def extract_speaker_names (lines : List String) : List String :=
  List.insertionSort (fun a b => strLe a b = true)
    ((lines.filterMap (fun l => (matchTag l).map Prod.fst)).dedup)

/-- The literal characters `[` ++ name ++ `]:`, the anchored alternation branch
that `re.escape(name)` contributes to the speaker-order pattern. -/
def tagPat (n : String) : List Char := '[' :: n.toList ++ [']', ':']

/-- Model of the dynamically built pattern `^\[(` + `|`.join(names) + `)\]:`
of `_extract_speaker_order`.  The alternation tries the escaped names left to
right; when `names` is empty the joined alternation is the empty string, so the
pattern degenerates to `^\[()\]:`, which matches any stripped line starting
with `[]:` and captures the empty string. -/
def matchOrderTag (names : List String) (line : String) : Option String :=
  if names = [] then
    if startsWithCh ['[', ']', ':'] (pyStrip line).toList then some "" else none
  else
    names.find? (fun n => startsWithCh (tagPat n) (pyStrip line).toList)

/-- Model of `_extract_speaker_order`. -/
def extract_speaker_order (lines : List String) : List String :=
  lines.filterMap (matchOrderTag (extract_speaker_names lines))

/-- Model of `_extract_lines_per_speaker`, as the function sending a speaker
to its list of stripped spoken texts.  The Python dict has exactly the
extracted speaker names as keys and appends, per tag-matching line in script
order, the stripped `(.*)` capture to the entry of the `[^\]]+` capture (which
is always an extracted name); callers read it with `.get(speaker, [])`, so an
absent key reads as `[]`, as here. -/
def lines_per_speaker (lines : List String) (s : String) : List String :=
  (taggedPairs lines).filterMap
    (fun p => if p.1 = s then some (pyStrip p.2) else none)

/-- Model of `_sanitize_filename`: `re.sub(r'[^\w\-_.]', '_', name)` — every
character outside `\w` (ASCII model) and `-`, `_`, `.` becomes `_`. -/
def sanitize_filename (name : String) : String :=
  String.mk (name.toList.map
    (fun c => if isWordCh c || c = '-' || c = '_' || c = '.' then c else '_'))

/-- Model of Python `str.lower()` (ASCII; Python also lowercases non-ASCII
letters). -/
def pyLower (s : String) : String := String.mk (s.toList.map Char.toLower)

/-- The warnings and errors that `generate_audio` logs: no voice assigned for
the speaker, per-speaker line index out of bounds, and a caught provider
failure. -/
inductive Event where
  | noVoice (lineNumber : Nat) (speaker : String)
  | outOfBounds (lineNumber : Nat) (speaker : String)
  | providerError (lineNumber : Nat) (speaker : String)
deriving DecidableEq

/-- One audio file written by `_generate_single_audio`, with the line number
and speaker it was produced for. -/
structure Clip where
  lineNumber : Nat
  speaker : String
  filename : String
  text : String
  voice : String
deriving DecidableEq

/-- The loop state of `generate_audio`: the per-speaker cursor dict
`index_tracker` (read with `.get(speaker, 0)`, so modelled as a total function
defaulting to 0), the clip files written so far, and the logged events. -/
structure GenState where
  tracker : String → Nat
  written : List Clip
  events : List Event

/-- Truthiness of `voice = self.voice_map.get(speaker)` under `if not voice:`:
a missing entry and an empty string are both falsy. -/
def voiceTruthy : Option String → Bool
  | none => false
  | some v => !(v = "")

/-- One iteration of the `generate_audio` loop at `(line_number, speaker)`.
The cursor is advanced (line 92 of the source) before the provider call is
attempted, so a provider failure still advances it. -/
def genStep (lps : String → List String) (vm : String → Option String)
    (ttsOk : String → String → Bool) (st : GenState) (p : Nat × String) :
    GenState :=
  let lineNumber := p.1
  let speaker := p.2
  if voiceTruthy (vm speaker) = false then
    { st with events := st.events ++ [Event.noVoice lineNumber speaker] }
  else
    let voice := (vm speaker).getD ""
    let speakerLines := lps speaker
    let speakerIndex := st.tracker speaker
    if speakerLines.length ≤ speakerIndex then
      { st with events := st.events ++ [Event.outOfBounds lineNumber speaker] }
    else
      let text := speakerLines.getD speakerIndex ""
      let tracker' := fun s => if s = speaker then st.tracker s + 1 else st.tracker s
      let filename :=
        sanitize_filename (toString lineNumber ++ "_" ++ pyLower speaker ++ ".wav")
      if ttsOk text voice then
        { tracker := tracker',
          written := st.written ++ [⟨lineNumber, speaker, filename, text, voice⟩],
          events := st.events }
      else
        { tracker := tracker',
          written := st.written,
          events := st.events ++ [Event.providerError lineNumber speaker] }

/-- Model of `generate_audio`: fold the per-line step over
`enumerate(self.speaker_orders, start=1)` with all cursors initialized to 0.
The provider is modelled by `ttsOk text voice` deciding whether
`_generate_single_audio` succeeds or raises. -/
def generate_audio (orders : List String) (lps : String → List String)
    (vm : String → Option String) (ttsOk : String → String → Bool) : GenState :=
  (orders.enumFrom 1).foldl (genStep lps vm ttsOk) ⟨fun _ => 0, [], []⟩

/-- The whole `PodcastScriptProcessor` run: parse the script lines, then
generate audio. -/
def process (lines : List String) (vm : String → Option String)
    (ttsOk : String → String → Bool) : GenState :=
  generate_audio (extract_speaker_order lines) (lines_per_speaker lines) vm ttsOk

end Podcast

namespace Podcast

/-! Assembler model (`cutting-podcast-workflow.py`). -/

/-- A directory entry handed to the assembler: a file name and, when the file
decodes as WAV, its decoded audio samples (`none` models a file on which
`AudioSegment.from_wav` raises). -/
structure FSFile where
  name : String
  content : Option (List Int)
deriving DecidableEq

/-- Numeric value of the digit run captured by `(\d+)`, as `int()` computes
it. -/
def digitsToNat (ds : List Char) : Nat :=
  ds.foldl (fun n c => 10 * n + (c.toNat - 48)) 0

/-- Model of `re.match(r"(\d+)_([a-zA-Z]+)\.wav", filename)`: anchored at the
start only (`re.match` does not anchor the end), greedy maximal digit run,
`_`, greedy maximal ASCII-letter run, then the literal `.wav`, then anything.
Returns `(int(group(1)), group(2).lower())` as `load_audio_files` uses it. -/
def parseClipName (s : String) : Option (Nat × String) :=
  let cs := s.toList
  let ds := cs.takeWhile isDigitCh
  if ds = [] then none
  else
    match cs.dropWhile isDigitCh with
    | '_' :: r2 =>
      let ls := r2.takeWhile isLetterCh
      if ls = [] then none
      else if startsWithCh ['.', 'w', 'a', 'v'] (r2.dropWhile isLetterCh) then
        some (digitsToNat ds, String.mk (ls.map Char.toLower))
      else none
    | _ => none

/-- Full-name (end-anchored) match of `^(\d+)_([A-Za-z]+)\.wav$`.
Modelled from the spec's words — the source pattern is not end-anchored; this
definition exists to compare the spec's anchored reading with the source's
`re.match` prefix semantics. -/
def anchoredClipName (s : String) : Option (Nat × String) :=
  let cs := s.toList
  let ds := cs.takeWhile isDigitCh
  if ds = [] then none
  else
    match cs.dropWhile isDigitCh with
    | '_' :: r2 =>
      let ls := r2.takeWhile isLetterCh
      if ls = [] then none
      else if r2.dropWhile isLetterCh = ['.', 'w', 'a', 'v'] then
        some (digitsToNat ds, String.mk (ls.map Char.toLower))
      else none
    | _ => none

/-- The per-line-number group: speaker name to decoded audio, in dict
insertion order. -/
abbrev Inner := List (String × List Int)

/-- `audio_groups`: line number to group, in dict insertion order. -/
abbrev AudioGroups := List (Nat × Inner)

/-- Python dict assignment `d[sp] = a` on an insertion-ordered dict: update in
place if the key exists, else append. -/
def updateInner : Inner → String → List Int → Inner
  | [], sp, a => [(sp, a)]
  | (s, v) :: t, sp, a =>
    if s = sp then (s, a) :: t else (s, v) :: updateInner t sp a

/-- `self.audio_groups[index][speaker] = audio` on the insertion-ordered outer
dict (`defaultdict(dict)` creates the missing inner dict). -/
def updateGroups : AudioGroups → Nat → String → List Int → AudioGroups
  | [], i, sp, a => [(i, [(sp, a)])]
  | (j, inner) :: t, i, sp, a =>
    if j = i then (j, updateInner inner sp a) :: t
    else (j, inner) :: updateGroups t i sp a

/-- Dict read `self.audio_groups[index]`: first entry with the key (keys are
unique by construction of `updateGroups`); `[]` for an absent key. -/
def lookupGroup : AudioGroups → Nat → Inner
  | [], _ => []
  | (k, inner) :: t, i => if k = i then inner else lookupGroup t i

/-- Dict read of a group entry by speaker name. -/
def lookupInner : Inner → String → Option (List Int)
  | [], _ => none
  | (s, v) :: t, sp => if s = sp then some v else lookupInner t sp

/-- One iteration of the `load_audio_files` loop: skip filenames the pattern
rejects; on a match, either insert the decoded audio under
`(int(group(1)), group(2).lower())` or record the decode-failure warning. -/
def loadStep (st : AudioGroups × List String) (f : FSFile) :
    AudioGroups × List String :=
  match parseClipName f.name with
  | none => st
  | some (i, sp) =>
    match f.content with
    | some a => (updateGroups st.1 i sp a, st.2)
    | none => (st.1, st.2 ++ [f.name])

/-- Model of `load_audio_files`: iterate over `sorted(os.listdir(dir))`
(modelled as sorting the directory listing by name) and fold `loadStep`.
Returns the built `audio_groups` and the names of files whose decode failed
(the `[WARNING] Could not load ...` prints). -/
def load_audio_files (files : List FSFile) : AudioGroups × List String :=
  (List.insertionSort (fun f g : FSFile => strLe f.name g.name = true) files).foldl
    loadStep ([], [])

/-- Model of `concatenate_audio`: iterate line numbers in ascending order and,
within a group, the speakers in dict insertion order, appending each decoded
clip to the combined track. -/
def concatenate_audio (gs : AudioGroups) : List Int :=
  (List.insertionSort (fun a b : Nat => a ≤ b) (gs.map Prod.fst)).foldl
    (fun combined i => (lookupGroup gs i).foldl (fun c p => c ++ p.2) combined) []

/-- Model of `export_final_audio`: load the directory, concatenate, and return
the final track (writing it back to disk is outside the model). -/
def export_final_audio (files : List FSFile) : List Int :=
  concatenate_audio (load_audio_files files).1

/-- The data `loadStep` inserts for a file, when its name matches the pattern
and its content decodes. -/
def clipEntry (f : FSFile) : Option (Nat × String × List Int) :=
  match parseClipName f.name, f.content with
  | some (i, sp), some a => some (i, sp, a)
  | _, _ => none

/-- The name `loadStep` warns about, when the file matches the pattern but
fails to decode. -/
def decodeFailName (f : FSFile) : Option String :=
  match parseClipName f.name, f.content with
  | some _, none => some f.name
  | _, _ => none

/-- `audio_groups` as built by inserting a list of parsed entries in order. -/
def buildGroups (es : List (Nat × String × List Int)) : AudioGroups :=
  es.foldl (fun gs e => updateGroups gs e.1 e.2.1 e.2.2) []

/-- The `(scriptLineNumber, speakerName)` key a file's name parses to (for
files whose name matches the pattern). -/
def fileKey (f : FSFile) : Nat × String := (parseClipName f.name).getD (0, "")

/-- The script line number encoded in a file's name. -/
def fileIdx (f : FSFile) : Nat := (fileKey f).1

/-- The decoded audio samples of a file (for files that decode). -/
def fileAudio (f : FSFile) : List Int := f.content.getD []

/-- The three-line example script used by the spec's testable properties. -/
def exampleScript : List String := readlines "[A]: hi\n[B]: yo\n[A]: bye\n"

/-- The example voice map `{A: v1, B: v2}`. -/
def exampleVoiceMap : String → Option String :=
  fun s => if s = "A" then some "v1" else if s = "B" then some "v2" else none

/-- The example voice map `{A: v1}` (B unassigned). -/
def exampleVoiceMapA : String → Option String :=
  fun s => if s = "A" then some "v1" else none

/-- A provider that succeeds on every call. -/
def ttsAlwaysOk : String → String → Bool := fun _ _ => true

/-- A provider that fails exactly on the text of line 2 of the example
script. -/
def ttsFailYo : String → String → Bool := fun t _ => !(t = "yo")

/-- A provider that fails on every call. -/
def ttsAlwaysFail : String → String → Bool := fun _ _ => false

/-- The example voice map `{A: v1, B: ""}` (B mapped to the empty string). -/
def exampleVoiceMapEmptyB : String → Option String :=
  fun s => if s = "A" then some "v1" else if s = "B" then some "" else none

end Podcast

namespace Podcast

example : taggedPairs ["[A]: hi\n", "[B]: yo\n", "[A]: bye\n"] =
    [("A", " hi"), ("B", " yo"), ("A", " bye")] := by decide

example : extract_speaker_names ["[A]: hi\n", "[B]: yo\n", "[A]: bye\n"] =
    ["A", "B"] := by decide

example : extract_speaker_order ["[A]: hi\n", "[B]: yo\n", "[A]: bye\n"] =
    ["A", "B", "A"] := by decide

example : lines_per_speaker ["[A]: hi\n", "[B]: yo\n", "[A]: bye\n"] "A" =
    ["hi", "bye"] := by decide

example : extract_speaker_order ["[]: x\n"] = [""] := by decide

example : taggedPairs ["[]: x\n"] = [] := by decide

example :
    (process ["[A]: hi\n", "[B]: yo\n", "[A]: bye\n"]
      (fun s => if s = "A" then some "v1" else if s = "B" then some "v2" else none)
      (fun _ _ => true)).written =
    [⟨1, "A", "1_a.wav", "hi", "v1"⟩, ⟨2, "B", "2_b.wav", "yo", "v2"⟩,
     ⟨3, "A", "3_a.wav", "bye", "v1"⟩] := by decide

example :
    (process ["[A]: hi\n", "[B]: yo\n", "[A]: bye\n"]
      (fun s => if s = "A" then some "v1" else none)
      (fun _ _ => true)).written.map Clip.filename = ["1_a.wav", "3_a.wav"] := by
  decide

example : sanitize_filename "1_b2.wav" = "1_b2.wav" := by decide

example : parseClipName "1_b2.wav" = none := by decide

example : parseClipName "1_a.wav" = some (1, "a") := by decide

example : parseClipName "1_a.wav.bak" = some (1, "a") := by decide

example : anchoredClipName "1_a.wav.bak" = none := by decide

example : parseClipName "final_output.wav" = none := by decide

example : parseClipName "abc_alan.wav" = none := by decide

example : parseClipName "01_A.wav" = some (1, "a") := by decide

example :
    load_audio_files [⟨"01_a.wav", some [1]⟩, ⟨"1_a.wav", some [2]⟩] =
      ([(1, [("a", [2])])], []) := by decide

example :
    export_final_audio [⟨"3_a.wav", some [30]⟩, ⟨"1_a.wav", some [10]⟩,
      ⟨"2_b.wav", some [20]⟩, ⟨"final_output.wav", some [99]⟩] =
    [10, 20, 30] := by decide

/-! Generic helper lemmas. -/

theorem charToNat_inj {a b : Char} (h : a.toNat = b.toNat) : a = b := by
  have h2 := congrArg Char.ofNat h
  simpa using h2

theorem lexLe_total : ∀ as bs, lexLe as bs = true ∨ lexLe bs as = true
  | [], _ => Or.inl rfl
  | _ :: _, [] => Or.inr rfl
  | a :: as, b :: bs => by
    rcases Nat.lt_trichotomy a.toNat b.toNat with h | h | h
    · left; simp [lexLe, h]
    · have hab : a = b := charToNat_inj h
      subst hab
      rcases lexLe_total as bs with ih | ih
      · left; simp [lexLe, ih]
      · right; simp [lexLe, ih]
    · right; simp [lexLe, h]

theorem lexLe_trans :
    ∀ as bs cs, lexLe as bs = true → lexLe bs cs = true → lexLe as cs = true
  | [], _, _ => fun _ _ => rfl
  | _ :: _, [], _ => by intro h _; simp [lexLe] at h
  | _ :: _, _ :: _, [] => by intro _ h; simp [lexLe] at h
  | a :: as, b :: bs, c :: cs => by
    intro h1 h2
    simp only [lexLe, Bool.or_eq_true, Bool.and_eq_true, decide_eq_true_eq] at h1 h2 ⊢
    rcases h1 with h1 | ⟨rfl, h1⟩
    · rcases h2 with h2 | ⟨rfl, _⟩
      · exact Or.inl (Nat.lt_trans h1 h2)
      · exact Or.inl h1
    · rcases h2 with h2 | ⟨rfl, h2⟩
      · exact Or.inl h2
      · exact Or.inr ⟨rfl, lexLe_trans as bs cs h1 h2⟩

theorem lexLe_antisymm :
    ∀ as bs, lexLe as bs = true → lexLe bs as = true → as = bs
  | [], [] => fun _ _ => rfl
  | [], _ :: _ => by intro _ h; simp [lexLe] at h
  | _ :: _, [] => by intro h _; simp [lexLe] at h
  | a :: as, b :: bs => by
    intro h1 h2
    simp only [lexLe, Bool.or_eq_true, Bool.and_eq_true, decide_eq_true_eq] at h1 h2
    rcases h1 with h1 | ⟨rfl, h1⟩
    · rcases h2 with h2 | ⟨rfl, _⟩
      · exact absurd h2 (Nat.lt_asymm h1)
      · exact absurd h1 (Nat.lt_irrefl _)
    · rcases h2 with h2 | ⟨_, h2⟩
      · exact absurd h2 (Nat.lt_irrefl _)
      · rw [lexLe_antisymm as bs h1 h2]

theorem strLe_total (s t : String) : strLe s t = true ∨ strLe t s = true :=
  lexLe_total _ _

theorem strLe_trans {s t u : String} (h1 : strLe s t = true)
    (h2 : strLe t u = true) : strLe s u = true :=
  lexLe_trans _ _ _ h1 h2

theorem strLe_antisymm {s t : String} (h1 : strLe s t = true)
    (h2 : strLe t s = true) : s = t :=
  String.ext (lexLe_antisymm _ _ h1 h2)

theorem startsWithCh_iff : ∀ pat s, startsWithCh pat s = true ↔ ∃ t, s = pat ++ t
  | [], s => by
    simp only [startsWithCh, List.nil_append]
    exact ⟨fun _ => ⟨s, rfl⟩, fun _ => trivial⟩
  | _ :: _, [] => by
    simp only [startsWithCh]
    exact ⟨fun h => absurd h (by simp), fun ⟨t, ht⟩ => by simp at ht⟩
  | a :: pat, b :: s => by
    simp only [startsWithCh, Bool.and_eq_true, decide_eq_true_eq, List.cons_append]
    constructor
    · rintro ⟨rfl, h⟩
      obtain ⟨t, rfl⟩ := (startsWithCh_iff pat s).1 h
      exact ⟨t, rfl⟩
    · rintro ⟨t, ht⟩
      injection ht with hb hs
      exact ⟨hb.symm, (startsWithCh_iff pat s).2 ⟨t, hs⟩⟩

theorem takeWhile_append_cons {α : Type} (p : α → Bool) :
    ∀ (xs : List α) (y : α) (ys : List α), (∀ x ∈ xs, p x = true) → p y = false →
      (xs ++ y :: ys).takeWhile p = xs
  | [], y, ys, _, hy => by simp [List.takeWhile_cons, hy]
  | x :: xs, y, ys, hxs, hy => by
    have hx : p x = true := hxs x (List.mem_cons_self x xs)
    simp only [List.cons_append, List.takeWhile_cons, hx, if_true]
    rw [takeWhile_append_cons p xs y ys (fun a ha => hxs a (List.mem_cons_of_mem x ha)) hy]

theorem dropWhile_append_cons {α : Type} (p : α → Bool) :
    ∀ (xs : List α) (y : α) (ys : List α), (∀ x ∈ xs, p x = true) → p y = false →
      (xs ++ y :: ys).dropWhile p = y :: ys
  | [], y, ys, _, hy => by simp [List.dropWhile_cons, hy]
  | x :: xs, y, ys, hxs, hy => by
    have hx : p x = true := hxs x (List.mem_cons_self x xs)
    simp only [List.cons_append, List.dropWhile_cons, hx, if_true]
    exact dropWhile_append_cons p xs y ys (fun a ha => hxs a (List.mem_cons_of_mem x ha)) hy

theorem filterMap_congr_mem {α β : Type} {f g : α → Option β} :
    ∀ l : List α, (∀ a ∈ l, f a = g a) → l.filterMap f = l.filterMap g
  | [], _ => rfl
  | a :: l, h => by
    have ha := h a (List.mem_cons_self a l)
    have hl := filterMap_congr_mem l (fun x hx => h x (List.mem_cons_of_mem a hx))
    simp only [List.filterMap_cons, ha, hl]

theorem foldl_congr_fun {α β : Type} {f g : β → α → β} (h : ∀ b a, f b a = g b a) :
    ∀ (l : List α) (b : β), l.foldl f b = l.foldl g b
  | [], _ => rfl
  | a :: l, b => by rw [List.foldl_cons, List.foldl_cons, h, foldl_congr_fun h l]

theorem find?_eq_some_unique {α : Type} (p : α → Bool) :
    ∀ (l : List α) (a : α), a ∈ l → p a = true → (∀ b ∈ l, p b = true → b = a) →
      l.find? p = some a
  | [], a, ha, _, _ => absurd ha (by simp)
  | x :: l, a, ha, hpa, huniq => by
    by_cases hx : p x = true
    · rw [List.find?_cons_of_pos _ hx]
      rw [huniq x (List.mem_cons_self x l) hx]
    · rw [List.find?_cons_of_neg _ hx]
      have hax : a ≠ x := fun h => hx (h ▸ hpa)
      have ha' : a ∈ l := by
        rcases List.mem_cons.1 ha with h | h
        · exact absurd h hax
        · exact h
      exact find?_eq_some_unique p l a ha' hpa
        (fun b hb hpb => huniq b (List.mem_cons_of_mem x hb) hpb)

/-- Two sorted lists that are permutations of each other and have no duplicate
sort keys are equal. -/
theorem sorted_perm_eq_key {α κ : Type} (key : α → κ) (le : κ → κ → Bool)
    (hanti : ∀ x y, le x y = true → le y x = true → x = y) :
    ∀ l₁ l₂ : List α, l₁.Perm l₂ →
      l₁.Pairwise (fun a b => le (key a) (key b) = true) →
      l₂.Pairwise (fun a b => le (key a) (key b) = true) →
      (l₁.map key).Nodup → l₁ = l₂
  | [], l₂, hp, _, _, _ => (hp.symm.eq_nil).symm
  | a :: t, [], hp, _, _, _ => absurd hp.eq_nil (by simp)
  | a :: t, b :: u, hp, h₁, h₂, hnd => by
    have hab : a ∈ b :: u := hp.subset (List.mem_cons_self a t)
    have hba : b ∈ a :: t := hp.symm.subset (List.mem_cons_self b u)
    by_cases heq : a = b
    · subst heq
      have hp' := hp.cons_inv
      have h₁' := (List.pairwise_cons.1 h₁).2
      have h₂' := (List.pairwise_cons.1 h₂).2
      have hnd' : (t.map key).Nodup := by
        simpa using (List.nodup_cons.1 (by simpa using hnd)).2
      rw [sorted_perm_eq_key key le hanti t u hp' h₁' h₂' hnd']
    · exfalso
      have hau : a ∈ u := by
        rcases List.mem_cons.1 hab with h | h
        · exact absurd h heq
        · exact h
      have hbt : b ∈ t := by
        rcases List.mem_cons.1 hba with h | h
        · exact absurd h.symm heq
        · exact h
      have h1 : le (key a) (key b) = true := (List.pairwise_cons.1 h₁).1 b hbt
      have h2 : le (key b) (key a) = true := (List.pairwise_cons.1 h₂).1 a hau
      have hk : key a = key b := hanti _ _ h1 h2
      have : key a ∈ t.map key := hk ▸ List.mem_map_of_mem key hbt
      exact (List.nodup_cons.1 (by simpa using hnd)).1 this

/-! Characterization of the tag grammar (`^\[([^\]]+)\]:`) model. -/

theorem splitTag_eq_some {cs nm rest : List Char}
    (h : splitTag cs = some (nm, rest)) :
    cs = '[' :: nm ++ ']' :: ':' :: rest ∧ nm ≠ [] ∧ ∀ c ∈ nm, c ≠ ']' := by
  unfold splitTag at h
  by_cases h1 : startsWithCh ['['] cs = true
  · rw [if_pos h1] at h
    obtain ⟨t1, ht1⟩ := (startsWithCh_iff _ _).1 h1
    subst ht1
    simp only [List.singleton_append, List.tail_cons] at h
    by_cases h2 : t1.takeWhile (fun c => decide (c ≠ ']')) = []
    · rw [if_pos h2] at h; exact absurd h (by simp)
    · rw [if_neg h2] at h
      by_cases h3 :
          startsWithCh [']', ':'] (t1.dropWhile (fun c => decide (c ≠ ']'))) = true
      · rw [if_pos h3] at h
        obtain ⟨t2, ht2⟩ := (startsWithCh_iff _ _).1 h3
        injection h with h
        injection h with hnm hrest
        subst hnm
        have hsplit := List.takeWhile_append_dropWhile
          (p := fun c => decide (c ≠ ']')) (l := t1)
        rw [ht2] at hsplit
        have hdrop : t2 = rest := by
          rw [ht2] at hrest
          simpa using hrest
        subst hdrop
        refine ⟨?_, h2, ?_⟩
        · conv_lhs => rw [← hsplit]
          simp
        · intro c hc
          have := List.mem_takeWhile_imp hc
          simpa using this
      · rw [if_neg h3] at h; exact absurd h (by simp)
  · rw [if_neg h1] at h; exact absurd h (by simp)

theorem splitTag_of_decomp {nm rest : List Char} (hnm : nm ≠ [])
    (hmem : ∀ c ∈ nm, c ≠ ']') :
    splitTag ('[' :: nm ++ ']' :: ':' :: rest) = some (nm, rest) := by
  have hmem' : ∀ c ∈ nm, (fun c => decide (c ≠ ']')) c = true := by
    intro c hc; simpa using hmem c hc
  have hstop : (fun c => decide (c ≠ ']')) ']' = false := by simp
  unfold splitTag
  rw [if_pos (by simp [startsWithCh])]
  simp only [List.cons_append, List.tail_cons]
  rw [takeWhile_append_cons _ nm ']' (':' :: rest) hmem' hstop]
  rw [if_neg hnm]
  rw [dropWhile_append_cons _ nm ']' (':' :: rest) hmem' hstop]
  rw [if_pos (by simp [startsWithCh])]
  simp

theorem matchTag_eq_some {l n t : String} (h : matchTag l = some (n, t)) :
    (pyStrip l).toList = '[' :: n.toList ++ ']' :: ':' :: t.toList ∧
      n.toList ≠ [] ∧ ∀ c ∈ n.toList, c ≠ ']' := by
  unfold matchTag at h
  cases hs : splitTag (pyStrip l).toList with
  | none => rw [hs] at h; exact absurd h (by simp)
  | some p =>
    rw [hs] at h
    obtain ⟨nm, rest⟩ := p
    injection h with h
    injection h with hn ht
    obtain ⟨hcs, hne, hmem⟩ := splitTag_eq_some hs
    subst hn
    subst ht
    exact ⟨hcs, hne, hmem⟩

theorem matchTag_of_decomp {l n t : String}
    (hcs : (pyStrip l).toList = '[' :: n.toList ++ ']' :: ':' :: t.toList)
    (hne : n.toList ≠ []) (hmem : ∀ c ∈ n.toList, c ≠ ']') :
    matchTag l = some (n, t) := by
  unfold matchTag
  rw [hcs, splitTag_of_decomp hne hmem]
  simp

theorem mem_speaker_names_iff {lines : List String} {n : String} :
    n ∈ extract_speaker_names lines ↔
      ∃ l ∈ lines, ∃ t, matchTag l = some (n, t) := by
  unfold extract_speaker_names
  rw [(List.perm_insertionSort _ _).mem_iff, List.mem_dedup, List.mem_filterMap]
  constructor
  · rintro ⟨l, hl, hfl⟩
    cases hm : matchTag l with
    | none => rw [hm] at hfl; exact absurd hfl (by simp)
    | some p =>
      rw [hm] at hfl
      obtain ⟨n', t⟩ := p
      simp only [Option.map_some'] at hfl
      injection hfl with hfl
      exact ⟨l, hl, t, by rw [hm, hfl]⟩
  · rintro ⟨l, hl, t, hm⟩
    exact ⟨l, hl, by rw [hm]; rfl⟩

theorem speaker_name_shape {lines : List String} {n : String}
    (h : n ∈ extract_speaker_names lines) :
    n.toList ≠ [] ∧ ∀ c ∈ n.toList, c ≠ ']' := by
  obtain ⟨l, _, t, hm⟩ := mem_speaker_names_iff.1 h
  obtain ⟨_, hne, hmem⟩ := matchTag_eq_some hm
  exact ⟨hne, hmem⟩

theorem speaker_names_eq_nil_iff {lines : List String} :
    extract_speaker_names lines = [] ↔ taggedPairs lines = [] := by
  rw [List.eq_nil_iff_forall_not_mem, List.eq_nil_iff_forall_not_mem]
  constructor
  · intro h p hp
    obtain ⟨l, hl, hm⟩ := List.mem_filterMap.1 hp
    exact h p.1 (mem_speaker_names_iff.2 ⟨l, hl, p.2, hm⟩)
  · intro h n hn
    obtain ⟨l, hl, t, hm⟩ := mem_speaker_names_iff.1 hn
    exact h (n, t) (List.mem_filterMap.2 ⟨l, hl, hm⟩)

/-- On a line of the script, the dynamically built speaker-order pattern and
the generic tag pattern agree (provided at least one speaker name was
extracted, so that the alternation is not empty). -/
theorem matchOrderTag_eq {lines : List String}
    (hne : extract_speaker_names lines ≠ []) {l : String} (hl : l ∈ lines) :
    matchOrderTag (extract_speaker_names lines) l = (matchTag l).map Prod.fst := by
  unfold matchOrderTag
  rw [if_neg hne]
  cases hm : matchTag l with
  | some p =>
    obtain ⟨n, t⟩ := p
    obtain ⟨hcs, hnne, hnmem⟩ := matchTag_eq_some hm
    have hpatn : tagPat n ++ t.toList = (pyStrip l).toList := by
      rw [hcs]; simp [tagPat]
    refine (find?_eq_some_unique _ _ n
      (mem_speaker_names_iff.2 ⟨l, hl, t, hm⟩)
      ((startsWithCh_iff _ _).2 ⟨t.toList, hpatn.symm⟩) ?_).trans (by simp)
    intro m hm' hpm
    obtain ⟨w, hw⟩ := (startsWithCh_iff _ _).1 hpm
    obtain ⟨hmne, hmmem⟩ := speaker_name_shape hm'
    have hmem' : ∀ c ∈ m.toList, (fun c => decide (c ≠ ']')) c = true := by
      intro c hc; simpa using hmmem c hc
    have hnmem' : ∀ c ∈ n.toList, (fun c => decide (c ≠ ']')) c = true := by
      intro c hc; simpa using hnmem c hc
    have hstop : (fun c => decide (c ≠ ']')) ']' = false := by simp
    have h1 : ((pyStrip l).toList.tail).takeWhile (fun c => decide (c ≠ ']')) =
        m.toList := by
      rw [hw]
      simp only [tagPat, List.cons_append, List.tail_cons, List.append_assoc]
      exact takeWhile_append_cons _ m.toList ']' (':' :: w) hmem' hstop
    have h2 : ((pyStrip l).toList.tail).takeWhile (fun c => decide (c ≠ ']')) =
        n.toList := by
      rw [hcs]
      simp only [List.cons_append, List.tail_cons]
      exact takeWhile_append_cons _ n.toList ']' (':' :: t.toList) hnmem' hstop
    exact String.ext (h1.symm.trans h2)
  | none =>
    have hfind : (extract_speaker_names lines).find?
        (fun n => startsWithCh (tagPat n) (pyStrip l).toList) = none := by
      rw [List.find?_eq_none]
      intro m hm' hpm
      obtain ⟨w, hw⟩ := (startsWithCh_iff _ _).1 hpm
      obtain ⟨hmne, hmmem⟩ := speaker_name_shape hm'
      have hmt : matchTag l = some (m, String.mk w) := by
        apply matchTag_of_decomp _ hmne hmmem
        rw [hw]; simp [tagPat]
      rw [hm] at hmt
      exact absurd hmt (by simp)
    rw [hfind]
    rfl

theorem filterMap_guard {α β : Type} (q : α → Prop) [DecidablePred q] (f : α → β) :
    ∀ l : List α, l.filterMap (fun a => if q a then some (f a) else none) =
      (l.filter (fun a => decide (q a))).map f
  | [] => rfl
  | a :: l => by
    by_cases hq : q a
    · simp only [List.filterMap_cons, if_pos hq, List.filter_cons,
        decide_eq_true hq, List.map_cons, filterMap_guard q f l]
      simp
    · simp only [List.filterMap_cons, if_neg hq, List.filter_cons,
        decide_eq_false hq, List.map_cons, filterMap_guard q f l]
      simp

/-- The speaker order equals the first projections of the tagged pairs, for
every script that has at least one tag-matching line or no stripped line
beginning with `[]:` (the empty-alternation edge case of the generated
pattern). -/
theorem speaker_order_eq_taggedPairs {lines : List String}
    (h : taggedPairs lines ≠ [] ∨
      ∀ l ∈ lines, startsWithCh ['[', ']', ':'] (pyStrip l).toList = false) :
    extract_speaker_order lines = (taggedPairs lines).map Prod.fst := by
  by_cases hn : extract_speaker_names lines = []
  · have htag : taggedPairs lines = [] := speaker_names_eq_nil_iff.1 hn
    have hcase : ∀ l ∈ lines,
        startsWithCh ['[', ']', ':'] (pyStrip l).toList = false := by
      rcases h with h | h
      · exact absurd htag h
      · exact h
    unfold extract_speaker_order
    rw [hn, htag]
    simp only [List.map_nil]
    rw [List.filterMap_eq_nil_iff]
    intro l hl
    unfold matchOrderTag
    rw [if_pos rfl, hcase l hl]
    simp
  · unfold extract_speaker_order
    rw [filterMap_congr_mem lines (fun l hl => matchOrderTag_eq hn hl)]
    exact (List.map_filterMap matchTag Prod.fst lines).symm

/-- C1 (amended: the conclusion holds for every script that contains at least
one tag-grammar line, or no trimmed line beginning with `[]:` — otherwise the
speaker-order pattern is built with an empty alternation and spuriously
matches `[]:` lines).  The speaker order lists exactly the speakers of the
tag-grammar lines in script order, so its length is the number of tag-matching
lines; the number of occurrences of a speaker `s` in it equals
`len(LinesPerSpeaker[s])`; and `LinesPerSpeaker[s]` is exactly the sequence of
stripped texts of the tag-matching lines whose speaker is `s`, in script
order, so the k-th occurrence of `s` corresponds to `LinesPerSpeaker[s][k]`. -/
theorem c1_speaker_order_invariants (lines : List String) (s : String)
    (h : taggedPairs lines ≠ [] ∨
      ∀ l ∈ lines, startsWithCh ['[', ']', ':'] (pyStrip l).toList = false) :
    extract_speaker_order lines = (taggedPairs lines).map Prod.fst ∧
    (extract_speaker_order lines).length = (taggedPairs lines).length ∧
    (extract_speaker_order lines).count s = (lines_per_speaker lines s).length ∧
    lines_per_speaker lines s =
      ((taggedPairs lines).filter (fun p => decide (p.1 = s))).map
        (fun p => pyStrip p.2) := by
  have horder := speaker_order_eq_taggedPairs h
  have hlps : lines_per_speaker lines s =
      ((taggedPairs lines).filter (fun p => decide (p.1 = s))).map
        (fun p => pyStrip p.2) :=
    filterMap_guard _ _ _
  refine ⟨horder, by rw [horder]; simp, ?_, hlps⟩
  rw [horder, hlps, List.length_map]
  rw [List.count_eq_countP, List.countP_map, List.countP_eq_length_filter]
  have hfun : ((fun x : String => x == s) ∘ Prod.fst) =
      (fun p : String × String => decide (p.1 = s)) := by
    funext p
    by_cases hp : p.1 = s <;> simp [hp, Function.comp]
  rw [hfun]

/-- C1 counterexample: in the script consisting of the single line `[]: x`,
no line matches the tag grammar (`[^\]]+` needs at least one character), yet
the speaker-order pattern — built with an empty alternation because no speaker
name was extracted — matches the line, so SpeakerOrder is `[""]`: its length
differs from the number of tag-grammar lines, and `""` occurs once in
SpeakerOrder while `LinesPerSpeaker[""]` has no entries. -/
theorem c1_counterexample :
    taggedPairs ["[]: x\n"] = [] ∧
    extract_speaker_order ["[]: x\n"] = [""] ∧
    (extract_speaker_order ["[]: x\n"]).length ≠ (taggedPairs ["[]: x\n"]).length ∧
    (extract_speaker_order ["[]: x\n"]).count "" ≠
      (lines_per_speaker ["[]: x\n"] "").length := by decide

/-- Witness for `c1_speaker_order_invariants` at the example script and
speaker `A`. -/
theorem c1_speaker_order_invariants_witness :
    (taggedPairs exampleScript ≠ [] ∨
      ∀ l ∈ exampleScript,
        startsWithCh ['[', ']', ':'] (pyStrip l).toList = false) ∧
    (extract_speaker_order exampleScript = (taggedPairs exampleScript).map Prod.fst ∧
     (extract_speaker_order exampleScript).length = (taggedPairs exampleScript).length ∧
     (extract_speaker_order exampleScript).count "A" =
       (lines_per_speaker exampleScript "A").length ∧
     lines_per_speaker exampleScript "A" =
       ((taggedPairs exampleScript).filter (fun p => decide (p.1 = "A"))).map
         (fun p => pyStrip p.2)) :=
  ⟨Or.inl (by decide), c1_speaker_order_invariants exampleScript "A" (Or.inl (by decide))⟩

/-! Lemmas about the synthesis-driver loop. -/

theorem genStep_tracker (lps : String → List String) (vm : String → Option String)
    (tts : String → String → Bool) (st : GenState) (p : Nat × String) (s : String) :
    (genStep lps vm tts st p).tracker s =
      if s = p.2 ∧ voiceTruthy (vm p.2) = true ∧ st.tracker p.2 < (lps p.2).length
      then st.tracker s + 1 else st.tracker s := by
  simp only [genStep]
  by_cases h1 : voiceTruthy (vm p.2) = false
  · rw [if_pos h1, if_neg]
    rintro ⟨_, h2, _⟩
    rw [h1] at h2
    exact absurd h2 (by simp)
  · have h1' : voiceTruthy (vm p.2) = true := by
      revert h1; cases voiceTruthy (vm p.2) <;> simp
    rw [if_neg h1]
    by_cases h2 : (lps p.2).length ≤ st.tracker p.2
    · rw [if_pos h2, if_neg]
      rintro ⟨_, _, h3⟩
      omega
    · rw [if_neg h2]
      by_cases hs : s = p.2
      · subst hs
        by_cases h3 : tts ((lps p.2).getD (st.tracker p.2) "") ((vm p.2).getD "") = true
        · rw [if_pos h3, if_pos ⟨rfl, h1', by omega⟩]
          simp
        · rw [if_neg h3, if_pos ⟨rfl, h1', by omega⟩]
          simp
      · by_cases h3 : tts ((lps p.2).getD (st.tracker p.2) "") ((vm p.2).getD "") = true
        · rw [if_pos h3, if_neg (fun hc => hs hc.1)]
          simp [hs]
        · rw [if_neg h3, if_neg (fun hc => hs hc.1)]
          simp [hs]

theorem genStep_tts_congr {lps : String → List String} {vm : String → Option String}
    {tts tts' : String → String → Bool} (h : ∀ t v, tts t v = tts' t v)
    (st : GenState) (p : Nat × String) :
    genStep lps vm tts st p = genStep lps vm tts' st p := by
  simp only [genStep]
  rw [h]

theorem genStep_tracker_congr {lps : String → List String}
    {vm : String → Option String} {tts tts' : String → String → Bool}
    {st st' : GenState} (h : st.tracker = st'.tracker) (p : Nat × String) :
    (genStep lps vm tts st p).tracker = (genStep lps vm tts' st' p).tracker := by
  funext s
  rw [genStep_tracker, genStep_tracker, h]

theorem foldl_genStep_tracker_congr {lps : String → List String}
    {vm : String → Option String} {tts tts' : String → String → Bool} :
    ∀ (l : List (Nat × String)) {st st' : GenState}, st.tracker = st'.tracker →
      (l.foldl (genStep lps vm tts) st).tracker =
        (l.foldl (genStep lps vm tts') st').tracker
  | [], _, _, h => h
  | p :: l, _, _, h =>
    foldl_genStep_tracker_congr l (genStep_tracker_congr h p)

theorem genStep_written_cases (lps : String → List String)
    (vm : String → Option String) (tts : String → String → Bool)
    (st : GenState) (p : Nat × String) :
    (genStep lps vm tts st p).written = st.written ∨
      ∃ c : Clip, (genStep lps vm tts st p).written = st.written ++ [c] ∧
        c.lineNumber = p.1 ∧ c.speaker = p.2 := by
  simp only [genStep]
  by_cases h1 : voiceTruthy (vm p.2) = false
  · rw [if_pos h1]; left; rfl
  · rw [if_neg h1]
    by_cases h2 : (lps p.2).length ≤ st.tracker p.2
    · rw [if_pos h2]; left; rfl
    · rw [if_neg h2]
      by_cases h3 : tts ((lps p.2).getD (st.tracker p.2) "") ((vm p.2).getD "") = true
      · rw [if_pos h3]; right; exact ⟨_, rfl, rfl, rfl⟩
      · rw [if_neg h3]; left; rfl

theorem genStep_events_cases (lps : String → List String)
    (vm : String → Option String) (tts : String → String → Bool)
    (st : GenState) (p : Nat × String) :
    (genStep lps vm tts st p).events = st.events ∨
      (genStep lps vm tts st p).events = st.events ++ [Event.noVoice p.1 p.2] ∨
      (genStep lps vm tts st p).events = st.events ++ [Event.outOfBounds p.1 p.2] ∨
      (genStep lps vm tts st p).events = st.events ++ [Event.providerError p.1 p.2] := by
  simp only [genStep]
  by_cases h1 : voiceTruthy (vm p.2) = false
  · rw [if_pos h1]; right; left; rfl
  · rw [if_neg h1]
    by_cases h2 : (lps p.2).length ≤ st.tracker p.2
    · rw [if_pos h2]; right; right; left; rfl
    · rw [if_neg h2]
      by_cases h3 : tts ((lps p.2).getD (st.tracker p.2) "") ((vm p.2).getD "") = true
      · rw [if_pos h3]; left; rfl
      · rw [if_neg h3]; right; right; right; rfl

theorem genStep_handles (lps : String → List String)
    (vm : String → Option String) (tts : String → String → Bool)
    (st : GenState) (p : Nat × String) :
    (∃ c : Clip, (genStep lps vm tts st p).written = st.written ++ [c] ∧
        c.lineNumber = p.1 ∧ c.speaker = p.2) ∨
      (genStep lps vm tts st p).events = st.events ++ [Event.noVoice p.1 p.2] ∨
      (genStep lps vm tts st p).events = st.events ++ [Event.outOfBounds p.1 p.2] ∨
      (genStep lps vm tts st p).events = st.events ++ [Event.providerError p.1 p.2] := by
  simp only [genStep]
  by_cases h1 : voiceTruthy (vm p.2) = false
  · rw [if_pos h1]; right; left; rfl
  · rw [if_neg h1]
    by_cases h2 : (lps p.2).length ≤ st.tracker p.2
    · rw [if_pos h2]; right; right; left; rfl
    · rw [if_neg h2]
      by_cases h3 : tts ((lps p.2).getD (st.tracker p.2) "") ((vm p.2).getD "") = true
      · rw [if_pos h3]; left; exact ⟨_, rfl, rfl, rfl⟩
      · rw [if_neg h3]; right; right; right; rfl

theorem genStep_written_mem {lps : String → List String}
    {vm : String → Option String} {tts : String → String → Bool}
    {st : GenState} {c : Clip} (hc : c ∈ st.written) (p : Nat × String) :
    c ∈ (genStep lps vm tts st p).written := by
  rcases genStep_written_cases lps vm tts st p with h | ⟨c', h, _, _⟩ <;>
    rw [h] <;> first
      | exact hc
      | exact List.mem_append_left _ hc

theorem genStep_events_mem {lps : String → List String}
    {vm : String → Option String} {tts : String → String → Bool}
    {st : GenState} {e : Event} (he : e ∈ st.events) (p : Nat × String) :
    e ∈ (genStep lps vm tts st p).events := by
  rcases genStep_events_cases lps vm tts st p with h | h | h | h <;>
    rw [h] <;> first
      | exact he
      | exact List.mem_append_left _ he

theorem foldl_genStep_written_mem {lps : String → List String}
    {vm : String → Option String} {tts : String → String → Bool} {c : Clip} :
    ∀ (l : List (Nat × String)) {st : GenState}, c ∈ st.written →
      c ∈ (l.foldl (genStep lps vm tts) st).written
  | [], _, hc => hc
  | p :: l, _, hc => foldl_genStep_written_mem l (genStep_written_mem hc p)

theorem foldl_genStep_events_mem {lps : String → List String}
    {vm : String → Option String} {tts : String → String → Bool} {e : Event} :
    ∀ (l : List (Nat × String)) {st : GenState}, e ∈ st.events →
      e ∈ (l.foldl (genStep lps vm tts) st).events
  | [], _, he => he
  | p :: l, _, he => foldl_genStep_events_mem l (genStep_events_mem he p)

/-- C3: on the script `"[A]: hi\n[B]: yo\n[A]: bye\n"` with voices assigned to
both speakers, and a provider that succeeds on every call, the driver writes
exactly the three clips `1_a.wav`, `2_b.wav`, `3_a.wav`, synthesized from the
texts `hi`, `yo`, `bye` (with the assigned voices). -/
theorem c3_example_synthesis (tts : String → String → Bool)
    (h : ∀ t v, tts t v = true) :
    (process exampleScript exampleVoiceMap tts).written =
      [⟨1, "A", "1_a.wav", "hi", "v1"⟩, ⟨2, "B", "2_b.wav", "yo", "v2"⟩,
       ⟨3, "A", "3_a.wav", "bye", "v1"⟩] := by
  have hstep : ∀ (st : GenState) (p : Nat × String),
      genStep (lines_per_speaker exampleScript) exampleVoiceMap tts st p =
        genStep (lines_per_speaker exampleScript) exampleVoiceMap ttsAlwaysOk st p :=
    genStep_tts_congr (fun t v => (h t v).trans rfl)
  unfold process generate_audio
  rw [foldl_congr_fun hstep]
  decide

/-- Witness for `c3_example_synthesis` with the always-succeeding provider. -/
theorem c3_example_synthesis_witness :
    (∀ t v, ttsAlwaysOk t v = true) ∧
    (process exampleScript exampleVoiceMap ttsAlwaysOk).written =
      [⟨1, "A", "1_a.wav", "hi", "v1"⟩, ⟨2, "B", "2_b.wav", "yo", "v2"⟩,
       ⟨3, "A", "3_a.wav", "bye", "v1"⟩] :=
  ⟨fun _ _ => rfl, c3_example_synthesis ttsAlwaysOk (fun _ _ => rfl)⟩

/-- C4 (amended): a speaker's cursor is advanced by one exactly when that
speaker's line is reached with a truthy voice assignment and an in-bounds
cursor — i.e. whenever the line is not skipped — and the advancement happens
before the provider call, so a provider failure does not prevent it; moreover
the cursors of a whole run never depend on the provider's outcomes. -/
theorem c4_cursor_advance (lps : String → List String) (vm : String → Option String)
    (tts tts' : String → String → Bool) (st : GenState) (p : Nat × String)
    (s : String) (orders : List String) :
    ((genStep lps vm tts st p).tracker s =
      if s = p.2 ∧ voiceTruthy (vm p.2) = true ∧ st.tracker p.2 < (lps p.2).length
      then st.tracker s + 1 else st.tracker s) ∧
    (genStep lps vm tts st p).tracker = (genStep lps vm tts' st p).tracker ∧
    (generate_audio orders lps vm tts).tracker =
      (generate_audio orders lps vm tts').tracker :=
  ⟨genStep_tracker lps vm tts st p s,
   genStep_tracker_congr rfl p,
   foldl_genStep_tracker_congr _ rfl⟩

/-- C4 counterexample: on the one-line script `"[A]: hi\n"` with a voice for
`A` and a provider that fails, no clip is written and the provider error is
logged for line 1, yet the cursor of `A` ends at 1 — the failed provider call
did not prevent the advancement, contradicting the claim that the cursor is
advanced only on successful processing. -/
theorem c4_counterexample :
    (process (readlines "[A]: hi\n") exampleVoiceMapA ttsAlwaysFail).written = [] ∧
    (process (readlines "[A]: hi\n") exampleVoiceMapA ttsAlwaysFail).events =
      [Event.providerError 1 "A"] ∧
    (process (readlines "[A]: hi\n") exampleVoiceMapA ttsAlwaysFail).tracker "A" = 1 := by
  refine ⟨by decide, by decide, by decide⟩

/-- C5: a provider failure is caught per line and does not abort the rest of
the run: every enumerated line of the speaker order is handled — it yields
either a written clip or a logged warning/error for exactly that line — and
the per-speaker cursors (which select each line's text) are identical for any
two providers, so a failure on one line never shifts the remaining lines. -/
theorem c5_provider_failure_isolated (orders : List String)
    (lps : String → List String) (vm : String → Option String)
    (tts tts' : String → String → Bool) (n : Nat) (sp : String)
    (hmem : (n, sp) ∈ orders.enumFrom 1) :
    (generate_audio orders lps vm tts).tracker =
      (generate_audio orders lps vm tts').tracker ∧
    ((∃ c ∈ (generate_audio orders lps vm tts).written,
        c.lineNumber = n ∧ c.speaker = sp) ∨
      Event.noVoice n sp ∈ (generate_audio orders lps vm tts).events ∨
      Event.outOfBounds n sp ∈ (generate_audio orders lps vm tts).events ∨
      Event.providerError n sp ∈ (generate_audio orders lps vm tts).events) := by
  refine ⟨foldl_genStep_tracker_congr _ rfl, ?_⟩
  unfold generate_audio
  generalize hinit : (⟨fun _ => 0, [], []⟩ : GenState) = init
  clear hinit
  generalize hL : orders.enumFrom 1 = L at hmem ⊢
  clear hL
  induction L generalizing init with
  | nil => exact absurd hmem (by simp)
  | cons p l ih =>
    rcases List.mem_cons.1 hmem with hp | hp
    · subst hp
      rw [List.foldl_cons]
      rcases genStep_handles lps vm tts init (n, sp) with ⟨c, h, hc1, hc2⟩ | h | h | h
      · left
        exact ⟨c, foldl_genStep_written_mem l (by rw [h]; simp), hc1, hc2⟩
      · right; left
        exact foldl_genStep_events_mem l (by rw [h]; simp)
      · right; right; left
        exact foldl_genStep_events_mem l (by rw [h]; simp)
      · right; right; right
        exact foldl_genStep_events_mem l (by rw [h]; simp)
    · rw [List.foldl_cons]
      exact ih _ hp

/-- Witness for `c5_provider_failure_isolated`: on the example script, a
provider failing exactly on line 2 still yields the clips for lines 1 and 3
(and the provider error for line 2 is logged). -/
theorem c5_provider_failure_isolated_witness :
    (2, "B") ∈ (extract_speaker_order exampleScript).enumFrom 1 ∧
    ((generate_audio (extract_speaker_order exampleScript)
        (lines_per_speaker exampleScript) exampleVoiceMap ttsFailYo).tracker =
      (generate_audio (extract_speaker_order exampleScript)
        (lines_per_speaker exampleScript) exampleVoiceMap ttsAlwaysOk).tracker ∧
     ((∃ c ∈ (generate_audio (extract_speaker_order exampleScript)
          (lines_per_speaker exampleScript) exampleVoiceMap ttsFailYo).written,
          c.lineNumber = 2 ∧ c.speaker = "B") ∨
       Event.noVoice 2 "B" ∈ (generate_audio (extract_speaker_order exampleScript)
          (lines_per_speaker exampleScript) exampleVoiceMap ttsFailYo).events ∨
       Event.outOfBounds 2 "B" ∈ (generate_audio (extract_speaker_order exampleScript)
          (lines_per_speaker exampleScript) exampleVoiceMap ttsFailYo).events ∨
       Event.providerError 2 "B" ∈ (generate_audio (extract_speaker_order exampleScript)
          (lines_per_speaker exampleScript) exampleVoiceMap ttsFailYo).events)) ∧
    (process exampleScript exampleVoiceMap ttsFailYo).written.map Clip.filename =
      ["1_a.wav", "3_a.wav"] :=
  ⟨by decide,
   c5_provider_failure_isolated (extract_speaker_order exampleScript)
     (lines_per_speaker exampleScript) exampleVoiceMap ttsFailYo ttsAlwaysOk
     2 "B" (by decide),
   by decide⟩

theorem foldl_genStep_falsy_invariant {lps : String → List String}
    {vm : String → Option String} {tts : String → String → Bool} {s : String}
    (hfalsy : voiceTruthy (vm s) = false) :
    ∀ (L : List (Nat × String)) (st : GenState), st.tracker s = 0 →
      (∀ c ∈ st.written, c.speaker ≠ s) →
      (L.foldl (genStep lps vm tts) st).tracker s = 0 ∧
        ∀ c ∈ (L.foldl (genStep lps vm tts) st).written, c.speaker ≠ s
  | [], st, h1, h2 => ⟨h1, h2⟩
  | p :: L, st, h1, h2 => by
    rw [List.foldl_cons]
    by_cases hp : p.2 = s
    · have hskip : genStep lps vm tts st p =
          { st with events := st.events ++ [Event.noVoice p.1 p.2] } := by
        simp only [genStep]
        rw [if_pos (by rw [hp]; exact hfalsy)]
      rw [hskip]
      exact foldl_genStep_falsy_invariant hfalsy L _ h1 h2
    · have htr : (genStep lps vm tts st p).tracker s = 0 := by
        rw [genStep_tracker]
        rw [if_neg (fun hc => hp hc.1.symm)]
        exact h1
      have hwr : ∀ c ∈ (genStep lps vm tts st p).written, c.speaker ≠ s := by
        rcases genStep_written_cases lps vm tts st p with h | ⟨c', h, _, hc2⟩
        · rw [h]; exact h2
        · rw [h]
          intro c hc
          rcases List.mem_append.1 hc with hc | hc
          · exact h2 c hc
          · have : c = c' := by simpa using hc
            rw [this, hc2]
            exact hp
      exact foldl_genStep_falsy_invariant hfalsy L _ htr hwr

theorem foldl_genStep_falsy_event {lps : String → List String}
    {vm : String → Option String} {tts : String → String → Bool} {s : String}
    {n : Nat} (hfalsy : voiceTruthy (vm s) = false) :
    ∀ (L : List (Nat × String)) (st : GenState), (n, s) ∈ L →
      Event.noVoice n s ∈ (L.foldl (genStep lps vm tts) st).events
  | [], _, hmem => absurd hmem (by simp)
  | p :: L, st, hmem => by
    rw [List.foldl_cons]
    rcases List.mem_cons.1 hmem with hp | hp
    · have hskip : genStep lps vm tts st p =
          { st with events := st.events ++ [Event.noVoice p.1 p.2] } := by
        simp only [genStep]
        rw [if_pos (by rw [← hp]; exact hfalsy)]
      rw [hskip]
      apply foldl_genStep_events_mem
      rw [← hp]
      simp
    · exact foldl_genStep_falsy_event hfalsy L _ hp

/-- C7: when a speaker in the speaker order has no (truthy) voice-map entry,
the driver skips exactly that speaker's lines: a no-voice warning is logged
for each of that speaker's line numbers, no clip is ever written for that
speaker, that speaker's cursor stays 0, and the run completes (the driver is a
total function of the whole order). -/
theorem c7_unvoiced_speaker_skipped (orders : List String)
    (lps : String → List String) (vm : String → Option String)
    (tts : String → String → Bool) (s : String) (n : Nat)
    (hfalsy : voiceTruthy (vm s) = false)
    (hmem : (n, s) ∈ orders.enumFrom 1) :
    (generate_audio orders lps vm tts).tracker s = 0 ∧
    (∀ c ∈ (generate_audio orders lps vm tts).written, c.speaker ≠ s) ∧
    Event.noVoice n s ∈ (generate_audio orders lps vm tts).events := by
  unfold generate_audio
  obtain ⟨h1, h2⟩ := foldl_genStep_falsy_invariant hfalsy (orders.enumFrom 1)
    ⟨fun _ => 0, [], []⟩ rfl (by intro c hc; exact absurd hc (by simp))
  exact ⟨h1, h2, foldl_genStep_falsy_event hfalsy (orders.enumFrom 1) _ hmem⟩

/-- Witness for `c7_unvoiced_speaker_skipped`: with voice map `{A: v1}`, the
example script produces exactly the clips `1_a` and `3_a` and the line-2
warning for `B`. -/
theorem c7_unvoiced_speaker_skipped_witness :
    voiceTruthy (exampleVoiceMapA "B") = false ∧
    (2, "B") ∈ (extract_speaker_order exampleScript).enumFrom 1 ∧
    ((generate_audio (extract_speaker_order exampleScript)
        (lines_per_speaker exampleScript) exampleVoiceMapA ttsAlwaysOk).tracker "B" = 0 ∧
     (∀ c ∈ (generate_audio (extract_speaker_order exampleScript)
        (lines_per_speaker exampleScript) exampleVoiceMapA ttsAlwaysOk).written,
        c.speaker ≠ "B") ∧
     Event.noVoice 2 "B" ∈ (generate_audio (extract_speaker_order exampleScript)
        (lines_per_speaker exampleScript) exampleVoiceMapA ttsAlwaysOk).events) ∧
    (process exampleScript exampleVoiceMapA ttsAlwaysOk).written.map Clip.filename =
      ["1_a.wav", "3_a.wav"] :=
  ⟨by decide, by decide,
   c7_unvoiced_speaker_skipped (extract_speaker_order exampleScript)
     (lines_per_speaker exampleScript) exampleVoiceMapA ttsAlwaysOk "B" 2
     (by decide) (by decide),
   by decide⟩

/-- C10: a voice-map entry whose value is the empty string (the falsy case of
`if not voice:`) makes the driver behave exactly as if the speaker had no
entry at all: the whole run (cursors, written clips, logged events) is
identical to the run with that entry removed. -/
theorem c10_empty_voice_equals_missing (orders : List String)
    (lps : String → List String) (vm : String → Option String)
    (tts : String → String → Bool) (s : String) (h : vm s = some "") :
    generate_audio orders lps vm tts =
      generate_audio orders lps (fun x => if x = s then none else vm x) tts := by
  unfold generate_audio
  apply foldl_congr_fun
  intro st p
  by_cases hp : p.2 = s
  · have h1 : voiceTruthy (vm p.2) = false := by rw [hp, h]; decide
    have h2 : voiceTruthy (if p.2 = s then none else vm p.2) = false := by
      rw [if_pos hp]; rfl
    simp only [genStep]
    rw [if_pos h1, if_pos h2]
  · simp only [genStep]
    rw [if_neg hp]

/-- Witness for `c10_empty_voice_equals_missing` at the example script with
voice map `{A: v1, B: ""}`. -/
theorem c10_empty_voice_equals_missing_witness :
    exampleVoiceMapEmptyB "B" = some "" ∧
    generate_audio (extract_speaker_order exampleScript)
        (lines_per_speaker exampleScript) exampleVoiceMapEmptyB ttsAlwaysOk =
      generate_audio (extract_speaker_order exampleScript)
        (lines_per_speaker exampleScript)
        (fun x => if x = "B" then none else exampleVoiceMapEmptyB x) ttsAlwaysOk :=
  ⟨by decide,
   c10_empty_voice_equals_missing (extract_speaker_order exampleScript)
     (lines_per_speaker exampleScript) exampleVoiceMapEmptyB ttsAlwaysOk "B"
     (by decide)⟩

/-! Lemmas about the assembler's group structure. -/

theorem lookupGroup_updateGroups :
    ∀ (gs : AudioGroups) (i : Nat) (sp : String) (a : List Int) (j : Nat),
      lookupGroup (updateGroups gs i sp a) j =
        if j = i then updateInner (lookupGroup gs i) sp a else lookupGroup gs j
  | [], i, sp, a, j => by
    by_cases hj : j = i
    · subst hj
      simp [updateGroups, lookupGroup, updateInner]
    · simp [updateGroups, lookupGroup, hj, Ne.symm hj]
  | (k, inner) :: t, i, sp, a, j => by
    by_cases hk : k = i
    · subst hk
      by_cases hj : j = k
      · subst hj
        simp [updateGroups, lookupGroup]
      · simp [updateGroups, lookupGroup, hj, Ne.symm hj]
    · by_cases hj : j = k
      · subst hj
        simp [updateGroups, lookupGroup, hk]
      · have hkj : ¬k = j := fun h => hj h.symm
        simp only [updateGroups, if_neg hk, lookupGroup, if_neg hkj]
        exact lookupGroup_updateGroups t i sp a j

theorem keys_updateGroups :
    ∀ (gs : AudioGroups) (i : Nat) (sp : String) (a : List Int),
      (updateGroups gs i sp a).map Prod.fst =
        if i ∈ gs.map Prod.fst then gs.map Prod.fst else gs.map Prod.fst ++ [i]
  | [], i, sp, a => by simp [updateGroups]
  | (k, inner) :: t, i, sp, a => by
    by_cases hk : k = i
    · subst hk
      simp [updateGroups]
    · simp only [updateGroups, if_neg hk, List.map_cons,
        keys_updateGroups t i sp a]
      by_cases hi : i ∈ t.map Prod.fst
      · rw [if_pos hi, if_pos (by simp [hi])]
      · have hik : ¬i = k := fun h => hk h.symm
        rw [if_neg hi, if_neg (by simp [hi, hik])]
        simp

theorem lookupInner_updateInner :
    ∀ (inner : Inner) (sp : String) (a : List Int) (sp' : String),
      lookupInner (updateInner inner sp a) sp' =
        if sp' = sp then some a else lookupInner inner sp'
  | [], sp, a, sp' => by
    by_cases h : sp' = sp
    · subst h; simp [updateInner, lookupInner]
    · simp [updateInner, lookupInner, h, Ne.symm h]
  | (s, v) :: t, sp, a, sp' => by
    by_cases hs : s = sp
    · subst hs
      by_cases h : sp' = s
      · subst h; simp [updateInner, lookupInner]
      · simp [updateInner, lookupInner, h, Ne.symm h]
    · by_cases h : sp' = s
      · subst h
        simp [updateInner, lookupInner, hs]
      · have hss : ¬s = sp' := fun hc => h hc.symm
        simp only [updateInner, if_neg hs, lookupInner, if_neg hss]
        exact lookupInner_updateInner t sp a sp'

theorem innerKeys_updateInner :
    ∀ (inner : Inner) (sp : String) (a : List Int),
      (updateInner inner sp a).map Prod.fst =
        if sp ∈ inner.map Prod.fst then inner.map Prod.fst
        else inner.map Prod.fst ++ [sp]
  | [], sp, a => by simp [updateInner]
  | (s, v) :: t, sp, a => by
    by_cases hs : s = sp
    · subst hs
      simp [updateInner]
    · simp only [updateInner, if_neg hs, List.map_cons,
        innerKeys_updateInner t sp a]
      by_cases hi : sp ∈ t.map Prod.fst
      · rw [if_pos hi, if_pos (by simp [hi])]
      · have hsps : ¬sp = s := fun h => hs h.symm
        rw [if_neg hi, if_neg (by simp [hi, hsps])]
        simp

theorem load_foldl_groups :
    ∀ (fs : List FSFile) (gs : AudioGroups) (ws : List String),
      (fs.foldl loadStep (gs, ws)).1 =
        (fs.filterMap clipEntry).foldl
          (fun g e => updateGroups g e.1 e.2.1 e.2.2) gs
  | [], gs, ws => rfl
  | f :: fs, gs, ws => by
    rw [List.foldl_cons, List.filterMap_cons]
    cases hp : parseClipName f.name with
    | none =>
      have h1 : loadStep (gs, ws) f = (gs, ws) := by simp [loadStep, hp]
      have h2 : clipEntry f = none := by simp [clipEntry, hp]
      rw [h1, h2, load_foldl_groups fs gs ws]
    | some key =>
      obtain ⟨i, sp⟩ := key
      cases hc : f.content with
      | none =>
        have h1 : loadStep (gs, ws) f = (gs, ws ++ [f.name]) := by
          simp [loadStep, hp, hc]
        have h2 : clipEntry f = none := by simp [clipEntry, hp, hc]
        rw [h1, h2, load_foldl_groups fs gs _]
      | some a =>
        have h1 : loadStep (gs, ws) f = (updateGroups gs i sp a, ws) := by
          simp [loadStep, hp, hc]
        have h2 : clipEntry f = some (i, sp, a) := by simp [clipEntry, hp, hc]
        rw [h1, h2, List.foldl_cons, load_foldl_groups fs _ ws]

theorem load_foldl_warnings :
    ∀ (fs : List FSFile) (gs : AudioGroups) (ws : List String),
      (fs.foldl loadStep (gs, ws)).2 = ws ++ fs.filterMap decodeFailName
  | [], gs, ws => by simp
  | f :: fs, gs, ws => by
    rw [List.foldl_cons, List.filterMap_cons]
    cases hp : parseClipName f.name with
    | none =>
      have h1 : loadStep (gs, ws) f = (gs, ws) := by simp [loadStep, hp]
      have h2 : decodeFailName f = none := by simp [decodeFailName, hp]
      rw [h1, h2, load_foldl_warnings fs gs ws]
    | some key =>
      obtain ⟨i, sp⟩ := key
      cases hc : f.content with
      | none =>
        have h1 : loadStep (gs, ws) f = (gs, ws ++ [f.name]) := by
          simp [loadStep, hp, hc]
        have h2 : decodeFailName f = some f.name := by
          simp [decodeFailName, hp, hc]
        rw [h1, h2, load_foldl_warnings fs gs _]
        simp
      | some a =>
        have h1 : loadStep (gs, ws) f = (updateGroups gs i sp a, ws) := by
          simp [loadStep, hp, hc]
        have h2 : decodeFailName f = none := by simp [decodeFailName, hp, hc]
        rw [h1, h2, load_foldl_warnings fs _ ws]

theorem lookupGroup_buildGroups_aux :
    ∀ (es : List (Nat × String × List Int)) (gs : AudioGroups) (i : Nat),
      lookupGroup (es.foldl (fun g e => updateGroups g e.1 e.2.1 e.2.2) gs) i =
        (es.filter (fun e => e.1 == i)).foldl
          (fun inn e => updateInner inn e.2.1 e.2.2) (lookupGroup gs i)
  | [], _, _ => rfl
  | (i1, sp1, a1) :: es, gs, i => by
    rw [List.foldl_cons, List.filter_cons]
    by_cases he : i1 = i
    · subst he
      rw [if_pos (by simp), List.foldl_cons,
        lookupGroup_buildGroups_aux es _ i1]
      congr 1
      rw [lookupGroup_updateGroups, if_pos rfl]
    · rw [if_neg (by simp [he]), lookupGroup_buildGroups_aux es _ i]
      congr 1
      rw [lookupGroup_updateGroups, if_neg (fun h => he h.symm)]

theorem lookupInner_foldl_of_filter_nil
    (es : List (Nat × String × List Int)) :
    ∀ (inn : Inner) (sp : String), es.filter (fun e => e.2.1 == sp) = [] →
      lookupInner (es.foldl (fun inn e => updateInner inn e.2.1 e.2.2) inn) sp =
        lookupInner inn sp := by
  induction es using List.reverseRecOn with
  | nil => intro inn sp _; rfl
  | append_singleton es e ih =>
    intro inn sp hfil
    rw [List.filter_append, List.append_eq_nil] at hfil
    have hsp : ¬e.2.1 = sp := by
      intro h
      have := hfil.2
      rw [List.filter_cons, if_pos (by simp [h])] at this
      exact absurd this (by simp)
    rw [List.foldl_append, List.foldl_cons, List.foldl_nil,
      lookupInner_updateInner, if_neg (fun h => hsp h.symm)]
    exact ih inn sp hfil.1

theorem lookupInner_foldl_of_getLast
    (es : List (Nat × String × List Int)) :
    ∀ (inn : Inner) (sp : String) (e0 : Nat × String × List Int),
      (es.filter (fun e => e.2.1 == sp)).getLast? = some e0 →
      lookupInner (es.foldl (fun inn e => updateInner inn e.2.1 e.2.2) inn) sp =
        some e0.2.2 := by
  induction es using List.reverseRecOn with
  | nil => intro inn sp e0 h; exact absurd h (by simp)
  | append_singleton es e ih =>
    intro inn sp e0 hlast
    rw [List.filter_append] at hlast
    rw [List.foldl_append, List.foldl_cons, List.foldl_nil,
      lookupInner_updateInner]
    by_cases hsp : e.2.1 = sp
    · have hfil : List.filter (fun e => e.2.1 == sp) [e] = [e] := by
        rw [List.filter_cons, if_pos (by simp [hsp])]
        rfl
      rw [hfil, List.getLast?_concat] at hlast
      injection hlast with hlast
      rw [if_pos hsp.symm, hlast]
    · have hfil : List.filter (fun e => e.2.1 == sp) [e] = [] := by
        rw [List.filter_cons, if_neg (by simp [hsp])]
        rfl
      rw [hfil, List.append_nil] at hlast
      rw [if_neg (fun h => hsp h.symm)]
      exact ih inn sp e0 hlast

theorem keys_foldl_mem :
    ∀ (es : List (Nat × String × List Int)) (gs : AudioGroups) (i : Nat),
      i ∈ (es.foldl (fun g e => updateGroups g e.1 e.2.1 e.2.2) gs).map Prod.fst ↔
        i ∈ gs.map Prod.fst ∨ i ∈ es.map (fun e => e.1)
  | [], gs, i => by simp
  | e :: es, gs, i => by
    rw [List.foldl_cons, keys_foldl_mem es _ i]
    have hupd : i ∈ (updateGroups gs e.1 e.2.1 e.2.2).map Prod.fst ↔
        i ∈ gs.map Prod.fst ∨ i = e.1 := by
      rw [keys_updateGroups]
      by_cases he : e.1 ∈ gs.map Prod.fst
      · rw [if_pos he]
        constructor
        · exact Or.inl
        · rintro (h | rfl)
          · exact h
          · exact he
      · rw [if_neg he]
        simp [List.mem_append]
    rw [hupd]
    simp only [List.map_cons, List.mem_cons]
    tauto

theorem keys_foldl_nodup :
    ∀ (es : List (Nat × String × List Int)) (gs : AudioGroups),
      (gs.map Prod.fst).Nodup →
      ((es.foldl (fun g e => updateGroups g e.1 e.2.1 e.2.2) gs).map Prod.fst).Nodup
  | [], _, h => h
  | e :: es, gs, h => by
    rw [List.foldl_cons]
    apply keys_foldl_nodup es
    rw [keys_updateGroups]
    by_cases he : e.1 ∈ gs.map Prod.fst
    · rw [if_pos he]; exact h
    · rw [if_neg he]
      simp [List.nodup_append, h, he]

theorem keys_foldl_of_nodup :
    ∀ (es : List (Nat × String × List Int)) (gs : AudioGroups),
      (∀ e ∈ es, e.1 ∉ gs.map Prod.fst) → (es.map (fun e => e.1)).Nodup →
      (es.foldl (fun g e => updateGroups g e.1 e.2.1 e.2.2) gs).map Prod.fst =
        gs.map Prod.fst ++ es.map (fun e => e.1)
  | [], gs, _, _ => by simp
  | e :: es, gs, hnotin, hnd => by
    rw [List.foldl_cons]
    have hkeys : (updateGroups gs e.1 e.2.1 e.2.2).map Prod.fst =
        gs.map Prod.fst ++ [e.1] := by
      rw [keys_updateGroups, if_neg (hnotin e (List.mem_cons_self e es))]
    rw [List.map_cons] at hnd
    have hnd' : (es.map (fun e => e.1)).Nodup := (List.nodup_cons.1 hnd).2
    have hhead : e.1 ∉ es.map (fun e => e.1) := (List.nodup_cons.1 hnd).1
    rw [keys_foldl_of_nodup es _ ?_ hnd', hkeys]
    · simp
    · intro e' he'
      rw [hkeys]
      simp only [List.mem_append, List.mem_singleton]
      rintro (h | h)
      · exact hnotin e' (List.mem_cons_of_mem e he') h
      · exact hhead (h ▸ List.mem_map_of_mem (fun e => e.1) he')

theorem filter_eq_singleton_of_nodup {α κ : Type} [DecidableEq κ] (key : α → κ) :
    ∀ (l : List α) (f : α), (l.map key).Nodup → f ∈ l →
      l.filter (fun x => key x == key f) = [f]
  | [], f, _, hf => absurd hf (by simp)
  | x :: l, f, hnd, hf => by
    rw [List.map_cons] at hnd
    have hx : key x ∉ l.map key := (List.nodup_cons.1 hnd).1
    rcases List.mem_cons.1 hf with heq | hf'
    · subst heq
      rw [List.filter_cons, if_pos (by simp)]
      have hnil : l.filter (fun y => key y == key f) = [] := by
        rw [List.filter_eq_nil_iff]
        intro y hy
        simp only [beq_iff_eq]
        intro h
        exact hx (h ▸ List.mem_map_of_mem key hy)
      rw [hnil]
    · have hxf : ¬(key x == key f) = true := by
        simp only [beq_iff_eq]
        intro h
        exact hx (h ▸ List.mem_map_of_mem key hf')
      rw [List.filter_cons, if_neg hxf]
      exact filter_eq_singleton_of_nodup key l f
        ((List.nodup_cons.1 hnd).2) hf'

theorem foldl_append_audio :
    ∀ (inn : Inner) (c : List Int),
      inn.foldl (fun c p => c ++ p.2) c = c ++ (inn.map (fun p => p.2)).flatten
  | [], c => by simp
  | p :: inn, c => by
    rw [List.foldl_cons, foldl_append_audio inn]
    simp

theorem concat_foldl_aux (gs : AudioGroups) :
    ∀ (ks : List Nat) (init : List Int),
      ks.foldl (fun combined i =>
        (lookupGroup gs i).foldl (fun c p => c ++ p.2) combined) init =
      init ++ (ks.map (fun i => ((lookupGroup gs i).map (fun p => p.2)).flatten)).flatten
  | [], init => by simp
  | k :: ks, init => by
    rw [List.foldl_cons, foldl_append_audio, concat_foldl_aux gs ks]
    simp

theorem concatenate_audio_flatten (gs : AudioGroups) :
    concatenate_audio gs =
      ((List.insertionSort (fun a b : Nat => a ≤ b) (gs.map Prod.fst)).map
        (fun i => ((lookupGroup gs i).map (fun p => p.2)).flatten)).flatten := by
  unfold concatenate_audio
  rw [concat_foldl_aux]
  rfl

theorem updateInner_keys_nodup {inner : Inner} (sp : String) (a : List Int)
    (h : (inner.map Prod.fst).Nodup) :
    ((updateInner inner sp a).map Prod.fst).Nodup := by
  rw [innerKeys_updateInner]
  by_cases hsp : sp ∈ inner.map Prod.fst
  · rw [if_pos hsp]; exact h
  · rw [if_neg hsp]
    simp [List.nodup_append, h, hsp]

theorem updateGroups_inner_nodup :
    ∀ (gs : AudioGroups) (i : Nat) (sp : String) (a : List Int),
      (∀ g ∈ gs, (g.2.map Prod.fst).Nodup) →
      ∀ g ∈ updateGroups gs i sp a, (g.2.map Prod.fst).Nodup
  | [], i, sp, a, _ => by
    intro g hg
    have : g = (i, [(sp, a)]) := by simpa [updateGroups] using hg
    rw [this]
    simp
  | (k, inner) :: t, i, sp, a, hall => by
    intro g hg
    by_cases hk : k = i
    · rw [updateGroups, if_pos hk] at hg
      rcases List.mem_cons.1 hg with heq | hmem
      · rw [heq]
        exact updateInner_keys_nodup sp a (hall (k, inner) (List.mem_cons_self _ _))
      · exact hall g (List.mem_cons_of_mem _ hmem)
    · rw [updateGroups, if_neg hk] at hg
      rcases List.mem_cons.1 hg with heq | hmem
      · rw [heq]
        exact hall (k, inner) (List.mem_cons_self _ _)
      · exact updateGroups_inner_nodup t i sp a
          (fun g' hg' => hall g' (List.mem_cons_of_mem _ hg')) g hmem

theorem foldl_groups_inner_nodup :
    ∀ (es : List (Nat × String × List Int)) (gs : AudioGroups),
      (∀ g ∈ gs, (g.2.map Prod.fst).Nodup) →
      ∀ g ∈ es.foldl (fun g e => updateGroups g e.1 e.2.1 e.2.2) gs,
        (g.2.map Prod.fst).Nodup
  | [], _, hall => hall
  | e :: es, gs, hall => by
    rw [List.foldl_cons]
    exact foldl_groups_inner_nodup es _ (updateGroups_inner_nodup gs e.1 e.2.1 e.2.2 hall)

/-- Re-sorting any permutation of a directory listing with distinct file names
yields the same sorted list, so the load order is independent of the
filesystem listing order. -/
theorem sortedByName_eq_of_perm {files files' : List FSFile}
    (hperm : files'.Perm files) (hnames : (files.map FSFile.name).Nodup) :
    List.insertionSort (fun f g : FSFile => strLe f.name g.name = true) files' =
      List.insertionSort (fun f g : FSFile => strLe f.name g.name = true) files := by
  haveI h1 : IsTotal FSFile (fun f g : FSFile => strLe f.name g.name = true) :=
    ⟨fun a b => strLe_total a.name b.name⟩
  haveI h2 : IsTrans FSFile (fun f g : FSFile => strLe f.name g.name = true) :=
    ⟨fun _ _ _ hab hbc => strLe_trans hab hbc⟩
  apply sorted_perm_eq_key FSFile.name strLe (fun _ _ hx hy => strLe_antisymm hx hy)
  · exact (List.perm_insertionSort _ files').trans
      (hperm.trans (List.perm_insertionSort _ files).symm)
  · exact List.sorted_insertionSort _ files'
  · exact List.sorted_insertionSort _ files
  · rw [((List.perm_insertionSort _ files').map FSFile.name).nodup_iff]
    rw [(hperm.map FSFile.name).nodup_iff]
    exact hnames

theorem foldl_loadStep_filter :
    ∀ (fs : List FSFile) (st : AudioGroups × List String),
      fs.foldl loadStep st =
        (fs.filter (fun f => (parseClipName f.name).isSome)).foldl loadStep st
  | [], _ => rfl
  | f :: fs, st => by
    rw [List.foldl_cons, List.filter_cons]
    cases hp : parseClipName f.name with
    | none =>
      have h1 : loadStep st f = st := by
        obtain ⟨gs, ws⟩ := st
        simp [loadStep, hp]
      rw [if_neg (by simp [hp]), h1]
      exact foldl_loadStep_filter fs st
    | some key =>
      rw [if_pos (by simp [hp]), List.foldl_cons]
      exact foldl_loadStep_filter fs _

/-- C8 (amended): `re.match` anchors only at the start, so a file is included
exactly when a prefix of its name matches `(\d+)_([a-zA-Z]+)\.wav`; every file
whose name has no such prefix (such as `final_output.wav` or `abc_alan.wav`)
is ignored and affects neither the groups nor the warnings: loading a
directory equals loading only its prefix-matching files. -/
theorem c8_nonmatching_ignored (files : List FSFile)
    (hnames : (files.map FSFile.name).Nodup) :
    load_audio_files files =
      load_audio_files (files.filter (fun f => (parseClipName f.name).isSome)) := by
  unfold load_audio_files
  rw [foldl_loadStep_filter]
  congr 1
  have hsub : (List.filter (fun f => (parseClipName f.name).isSome)
      (List.insertionSort (fun f g : FSFile => strLe f.name g.name = true) files)).Perm
      (files.filter (fun f => (parseClipName f.name).isSome)) :=
    (List.perm_insertionSort _ files).filter _
  haveI h1 : IsTotal FSFile (fun f g : FSFile => strLe f.name g.name = true) :=
    ⟨fun a b => strLe_total a.name b.name⟩
  haveI h2 : IsTrans FSFile (fun f g : FSFile => strLe f.name g.name = true) :=
    ⟨fun _ _ _ hab hbc => strLe_trans hab hbc⟩
  apply sorted_perm_eq_key FSFile.name strLe (fun _ _ hx hy => strLe_antisymm hx hy)
  · exact hsub.trans (List.perm_insertionSort _ _).symm
  · exact (List.sorted_insertionSort _ files).filter _
  · exact List.sorted_insertionSort _ _
  · have hS : ((List.insertionSort (fun f g : FSFile =>
        strLe f.name g.name = true) files).map FSFile.name).Nodup := by
      rw [((List.perm_insertionSort _ files).map FSFile.name).nodup_iff]
      exact hnames
    exact List.Nodup.sublist ((List.filter_sublist _).map FSFile.name) hS

/-- C8 counterexample: the name `1_a.wav.bak` does not match the end-anchored
pattern `^(\d+)_([A-Za-z]+)\.wav$`, yet `re.match` accepts it (prefix match),
so the assembler includes the file — inclusion is not equivalent to a
full-name match. -/
theorem c8_counterexample :
    parseClipName "1_a.wav.bak" = some (1, "a") ∧
    anchoredClipName "1_a.wav.bak" = none ∧
    (load_audio_files [⟨"1_a.wav.bak", some [7]⟩]).1 = [(1, [("a", [7])])] ∧
    export_final_audio [⟨"1_a.wav.bak", some [7]⟩] = [7] := by decide

/-- Witness for `c8_nonmatching_ignored` on a directory holding one valid
clip, a prior run's output file and a junk name. -/
theorem c8_nonmatching_ignored_witness :
    (([⟨"final_output.wav", some [99]⟩, ⟨"1_a.wav", some [10]⟩,
       ⟨"abc_alan.wav", some [5]⟩] : List FSFile).map FSFile.name).Nodup ∧
    load_audio_files [⟨"final_output.wav", some [99]⟩, ⟨"1_a.wav", some [10]⟩,
        ⟨"abc_alan.wav", some [5]⟩] =
      load_audio_files (([⟨"final_output.wav", some [99]⟩, ⟨"1_a.wav", some [10]⟩,
        ⟨"abc_alan.wav", some [5]⟩] : List FSFile).filter
          (fun f => (parseClipName f.name).isSome)) :=
  ⟨by decide,
   c8_nonmatching_ignored [⟨"final_output.wav", some [99]⟩, ⟨"1_a.wav", some [10]⟩,
     ⟨"abc_alan.wav", some [5]⟩] (by decide)⟩

/-- C9 (amended): after loading, the groups hold at most one decoded clip per
`(scriptLineNumber, lowercased speaker)` key (both the outer and inner key
lists are duplicate-free); when several files map to the same key, the stored
clip is the one of the last such file in processing (sorted-filename) order —
last-write-wins — but the overwrite is silent: the only warnings are decode
failures. -/
theorem c9_last_write_wins (files : List FSFile) (i : Nat) (sp : String)
    (e0 : Nat × String × List Int) :
    ((load_audio_files files).1.map Prod.fst).Nodup ∧
    (∀ g ∈ (load_audio_files files).1, (g.2.map Prod.fst).Nodup) ∧
    (load_audio_files files).2 =
      (List.insertionSort (fun f g : FSFile => strLe f.name g.name = true)
        files).filterMap decodeFailName ∧
    ((((List.insertionSort (fun f g : FSFile => strLe f.name g.name = true)
          files).filterMap clipEntry).filter
        (fun e => e.2.1 == sp && e.1 == i)).getLast? = some e0 →
      lookupInner (lookupGroup (load_audio_files files).1 i) sp = some e0.2.2) := by
  have hgroups : (load_audio_files files).1 =
      ((List.insertionSort (fun f g : FSFile => strLe f.name g.name = true)
        files).filterMap clipEntry).foldl
          (fun g e => updateGroups g e.1 e.2.1 e.2.2) [] := by
    unfold load_audio_files
    rw [load_foldl_groups]
  have hws : (load_audio_files files).2 =
      (List.insertionSort (fun f g : FSFile => strLe f.name g.name = true)
        files).filterMap decodeFailName := by
    unfold load_audio_files
    rw [load_foldl_warnings]
    simp
  refine ⟨?_, ?_, hws, ?_⟩
  · rw [hgroups]
    exact keys_foldl_nodup _ [] (by simp)
  · rw [hgroups]
    exact foldl_groups_inner_nodup _ [] (by intro g hg; exact absurd hg (by simp))
  · intro hlast
    rw [hgroups, lookupGroup_buildGroups_aux]
    apply lookupInner_foldl_of_getLast
    rw [List.filter_filter]
    exact hlast

/-- C9 counterexample: `01_a.wav` and `1_a.wav` both parse to the key
`(1, "a")`; loading both stores only the content of `1_a.wav`, which sorts
later — but the warnings list is empty: the overwrite is not surfaced as a
warning (warnings are only printed for decode failures). -/
theorem c9_counterexample :
    parseClipName "01_a.wav" = some (1, "a") ∧
    parseClipName "1_a.wav" = some (1, "a") ∧
    load_audio_files [⟨"01_a.wav", some [1]⟩, ⟨"1_a.wav", some [2]⟩] =
      ([(1, [("a", [2])])], []) := by decide

/-- Witness for `c9_last_write_wins` on the two-files-one-key directory. -/
theorem c9_last_write_wins_witness :
    ((((List.insertionSort (fun f g : FSFile => strLe f.name g.name = true)
          ([⟨"01_a.wav", some [1]⟩, ⟨"1_a.wav", some [2]⟩] : List FSFile)).filterMap
            clipEntry).filter
        (fun e => e.2.1 == "a" && e.1 == 1)).getLast? = some (1, "a", [2])) ∧
    (((load_audio_files [⟨"01_a.wav", some [1]⟩, ⟨"1_a.wav", some [2]⟩]).1.map
        Prod.fst).Nodup ∧
     (∀ g ∈ (load_audio_files [⟨"01_a.wav", some [1]⟩, ⟨"1_a.wav", some [2]⟩]).1,
        (g.2.map Prod.fst).Nodup) ∧
     (load_audio_files [⟨"01_a.wav", some [1]⟩, ⟨"1_a.wav", some [2]⟩]).2 =
       (List.insertionSort (fun f g : FSFile => strLe f.name g.name = true)
         ([⟨"01_a.wav", some [1]⟩, ⟨"1_a.wav", some [2]⟩] : List FSFile)).filterMap
           decodeFailName ∧
     ((((List.insertionSort (fun f g : FSFile => strLe f.name g.name = true)
           ([⟨"01_a.wav", some [1]⟩, ⟨"1_a.wav", some [2]⟩] : List FSFile)).filterMap
             clipEntry).filter
         (fun e => e.2.1 == "a" && e.1 == 1)).getLast? = some (1, "a", [2]) →
       lookupInner (lookupGroup
         (load_audio_files [⟨"01_a.wav", some [1]⟩, ⟨"1_a.wav", some [2]⟩]).1 1)
         "a" = some [2])) :=
  ⟨by decide,
   c9_last_write_wins [⟨"01_a.wav", some [1]⟩, ⟨"1_a.wav", some [2]⟩] 1 "a"
     (1, "a", [2])⟩

/-- The single group entry stored for a file with a unique script line
number, when every file of the directory parses and decodes. -/
theorem lookupGroup_load_singleton (files : List FSFile)
    (hparse : ∀ f ∈ files, (parseClipName f.name).isSome)
    (hdec : ∀ f ∈ files, f.content.isSome)
    (hidx : (files.map fileIdx).Nodup) {f : FSFile} (hf : f ∈ files) :
    lookupGroup (load_audio_files files).1 (fileIdx f) =
      [((fileKey f).2, fileAudio f)] := by
  have hSmem : ∀ g : FSFile, g ∈ List.insertionSort
      (fun f g : FSFile => strLe f.name g.name = true) files ↔ g ∈ files :=
    fun g => (List.perm_insertionSort _ files).mem_iff
  have hce : ∀ g ∈ files, clipEntry g =
      some (fileIdx g, (fileKey g).2, fileAudio g) := by
    intro g hg
    obtain ⟨k, hk⟩ := Option.isSome_iff_exists.1 (hparse g hg)
    obtain ⟨a, ha⟩ := Option.isSome_iff_exists.1 (hdec g hg)
    simp [clipEntry, fileIdx, fileKey, fileAudio, hk, ha]
  have hes : (List.insertionSort (fun f g : FSFile => strLe f.name g.name = true)
        files).filterMap clipEntry =
      (List.insertionSort (fun f g : FSFile => strLe f.name g.name = true)
        files).map (fun g => (fileIdx g, (fileKey g).2, fileAudio g)) := by
    rw [filterMap_congr_mem _ (fun g hg => hce g ((hSmem g).1 hg))]
    exact congrFun (List.filterMap_eq_map _) _
  have hidxS : ((List.insertionSort (fun f g : FSFile => strLe f.name g.name = true)
      files).map fileIdx).Nodup := by
    rw [((List.perm_insertionSort _ files).map fileIdx).nodup_iff]
    exact hidx
  have hload : (load_audio_files files).1 =
      ((List.insertionSort (fun f g : FSFile => strLe f.name g.name = true)
        files).filterMap clipEntry).foldl
          (fun g e => updateGroups g e.1 e.2.1 e.2.2) [] := by
    unfold load_audio_files
    rw [load_foldl_groups]
  rw [hload, lookupGroup_buildGroups_aux, hes, List.filter_map]
  have hsingle : (List.insertionSort (fun f g : FSFile => strLe f.name g.name = true)
        files).filter
      ((fun e : Nat × String × List Int => e.1 == fileIdx f) ∘
        (fun g => (fileIdx g, (fileKey g).2, fileAudio g))) = [f] := by
    have := filter_eq_singleton_of_nodup fileIdx
      (List.insertionSort (fun f g : FSFile => strLe f.name g.name = true) files)
      f hidxS ((hSmem f).2 hf)
    exact this
  rw [hsingle]
  rfl

/-- C2: when every file of a directory has a pattern-matching name and
decodable content and the encoded script line numbers are pairwise distinct,
assembly returns exactly the concatenation of the decoded clip contents in
ascending script-line-number order, and the result is unchanged under any
permutation of the directory listing (with the same distinct file names). -/
theorem c2_ordered_assembly (files files' : List FSFile)
    (hperm : files'.Perm files)
    (hnames : (files.map FSFile.name).Nodup)
    (hparse : ∀ f ∈ files, (parseClipName f.name).isSome)
    (hdec : ∀ f ∈ files, f.content.isSome)
    (hidx : (files.map fileIdx).Nodup) :
    export_final_audio files =
      ((List.insertionSort (fun f g : FSFile => fileIdx f ≤ fileIdx g) files).map
        fileAudio).flatten ∧
    export_final_audio files' = export_final_audio files := by
  constructor
  · haveI hto : IsTotal FSFile (fun f g : FSFile => fileIdx f ≤ fileIdx g) :=
      ⟨fun a b => Nat.le_total _ _⟩
    haveI htr : IsTrans FSFile (fun f g : FSFile => fileIdx f ≤ fileIdx g) :=
      ⟨fun _ _ _ hab hbc => Nat.le_trans hab hbc⟩
    have hTmem : ∀ g : FSFile, g ∈ List.insertionSort
        (fun f g : FSFile => fileIdx f ≤ fileIdx g) files ↔ g ∈ files :=
      fun g => (List.perm_insertionSort _ files).mem_iff
    have hkeysG : (load_audio_files files).1.map Prod.fst =
        (List.insertionSort (fun f g : FSFile => strLe f.name g.name = true)
          files).map fileIdx := by
      have hSmem : ∀ g : FSFile, g ∈ List.insertionSort
          (fun f g : FSFile => strLe f.name g.name = true) files ↔ g ∈ files :=
        fun g => (List.perm_insertionSort _ files).mem_iff
      have hce : ∀ g ∈ files, clipEntry g =
          some (fileIdx g, (fileKey g).2, fileAudio g) := by
        intro g hg
        obtain ⟨k, hk⟩ := Option.isSome_iff_exists.1 (hparse g hg)
        obtain ⟨a, ha⟩ := Option.isSome_iff_exists.1 (hdec g hg)
        simp [clipEntry, fileIdx, fileKey, fileAudio, hk, ha]
      have hes : (List.insertionSort (fun f g : FSFile => strLe f.name g.name = true)
            files).filterMap clipEntry =
          (List.insertionSort (fun f g : FSFile => strLe f.name g.name = true)
            files).map (fun g => (fileIdx g, (fileKey g).2, fileAudio g)) := by
        rw [filterMap_congr_mem _ (fun g hg => hce g ((hSmem g).1 hg))]
        exact congrFun (List.filterMap_eq_map _) _
      have hidxS : ((List.insertionSort
          (fun f g : FSFile => strLe f.name g.name = true)
          files).map fileIdx).Nodup := by
        rw [((List.perm_insertionSort _ files).map fileIdx).nodup_iff]
        exact hidx
      have hload : (load_audio_files files).1 =
          ((List.insertionSort (fun f g : FSFile => strLe f.name g.name = true)
            files).filterMap clipEntry).foldl
              (fun g e => updateGroups g e.1 e.2.1 e.2.2) [] := by
        unfold load_audio_files
        rw [load_foldl_groups]
      rw [hload, keys_foldl_of_nodup _ [] (by simp) ?_]
      · rw [hes, List.map_map, List.map_nil, List.nil_append]
        rfl
      · rw [hes, List.map_map]
        exact hidxS
    have hsortkeys : List.insertionSort (fun a b : Nat => a ≤ b)
        ((load_audio_files files).1.map Prod.fst) =
        (List.insertionSort (fun f g : FSFile => fileIdx f ≤ fileIdx g)
          files).map fileIdx := by
      apply List.eq_of_perm_of_sorted (r := fun a b : Nat => a ≤ b)
      · refine (List.perm_insertionSort _ _).trans ?_
        rw [hkeysG]
        refine ((List.perm_insertionSort _ files).map fileIdx).trans ?_
        exact ((List.perm_insertionSort _ files).map fileIdx).symm
      · exact List.sorted_insertionSort _ _
      · exact List.pairwise_map.2 (List.sorted_insertionSort _ files)
    unfold export_final_audio
    rw [concatenate_audio_flatten, hsortkeys, List.map_map]
    congr 1
    apply List.map_congr_left
    intro g hg
    have hsingle := lookupGroup_load_singleton files hparse hdec hidx
      ((hTmem g).1 hg)
    simp only [Function.comp]
    rw [hsingle]
    simp
  · have hsort := sortedByName_eq_of_perm hperm hnames
    unfold export_final_audio load_audio_files
    rw [hsort]

/-- Witness for `c2_ordered_assembly` on the clip set `{1_a, 2_b, 3_a}` in a
scrambled listing order. -/
theorem c2_ordered_assembly_witness :
    (([⟨"2_b.wav", some [20]⟩, ⟨"3_a.wav", some [30]⟩,
        ⟨"1_a.wav", some [10]⟩] : List FSFile)).Perm
      [⟨"3_a.wav", some [30]⟩, ⟨"1_a.wav", some [10]⟩, ⟨"2_b.wav", some [20]⟩] ∧
    (([⟨"3_a.wav", some [30]⟩, ⟨"1_a.wav", some [10]⟩,
        ⟨"2_b.wav", some [20]⟩] : List FSFile).map FSFile.name).Nodup ∧
    (∀ f ∈ ([⟨"3_a.wav", some [30]⟩, ⟨"1_a.wav", some [10]⟩,
        ⟨"2_b.wav", some [20]⟩] : List FSFile), (parseClipName f.name).isSome) ∧
    (∀ f ∈ ([⟨"3_a.wav", some [30]⟩, ⟨"1_a.wav", some [10]⟩,
        ⟨"2_b.wav", some [20]⟩] : List FSFile), f.content.isSome) ∧
    (([⟨"3_a.wav", some [30]⟩, ⟨"1_a.wav", some [10]⟩,
        ⟨"2_b.wav", some [20]⟩] : List FSFile).map fileIdx).Nodup ∧
    (export_final_audio [⟨"3_a.wav", some [30]⟩, ⟨"1_a.wav", some [10]⟩,
        ⟨"2_b.wav", some [20]⟩] =
      ((List.insertionSort (fun f g : FSFile => fileIdx f ≤ fileIdx g)
        [⟨"3_a.wav", some [30]⟩, ⟨"1_a.wav", some [10]⟩,
         ⟨"2_b.wav", some [20]⟩]).map fileAudio).flatten ∧
     export_final_audio [⟨"2_b.wav", some [20]⟩, ⟨"3_a.wav", some [30]⟩,
        ⟨"1_a.wav", some [10]⟩] =
       export_final_audio [⟨"3_a.wav", some [30]⟩, ⟨"1_a.wav", some [10]⟩,
        ⟨"2_b.wav", some [20]⟩]) :=
  ⟨by decide, by decide, by decide, by decide, by decide,
   c2_ordered_assembly
     [⟨"3_a.wav", some [30]⟩, ⟨"1_a.wav", some [10]⟩, ⟨"2_b.wav", some [20]⟩]
     [⟨"2_b.wav", some [20]⟩, ⟨"3_a.wav", some [30]⟩, ⟨"1_a.wav", some [10]⟩]
     (by decide) (by decide) (by decide) (by decide) (by decide)⟩

/-! Decimal representation of the line number (`f"{line_number}_..."` uses
`str(int)`, modelled by `Nat.repr`). -/

theorem digitChar_facts :
    ∀ r : Nat, r < 10 →
      isDigitCh (Nat.digitChar r) = true ∧ (Nat.digitChar r).toNat - 48 = r := by
  decide

theorem digitsToNat_append (xs : List Char) (c : Char) :
    digitsToNat (xs ++ [c]) = 10 * digitsToNat xs + (c.toNat - 48) := by
  unfold digitsToNat
  rw [List.foldl_append]
  rfl

theorem toDigitsCore_shift (fuel : Nat) :
    ∀ (n : Nat) (ds : List Char), n < fuel →
      Nat.toDigitsCore 10 fuel n ds = Nat.toDigitsCore 10 (n + 1) n [] ++ ds := by
  induction fuel using Nat.strong_induction_on with
  | _ fuel ih =>
    intro n ds hlt
    cases fuel with
    | zero => omega
    | succ fuel' =>
      have hunf : ∀ (m : Nat) (es : List Char),
          Nat.toDigitsCore 10 (m + 1) m es =
            if m / 10 = 0 then Nat.digitChar (m % 10) :: es
            else Nat.toDigitsCore 10 m (m / 10) (Nat.digitChar (m % 10) :: es) := by
        intro m es
        simp [Nat.toDigitsCore]
      have hunf' : Nat.toDigitsCore 10 (fuel' + 1) n ds =
          if n / 10 = 0 then Nat.digitChar (n % 10) :: ds
          else Nat.toDigitsCore 10 fuel' (n / 10) (Nat.digitChar (n % 10) :: ds) := by
        simp [Nat.toDigitsCore]
      by_cases h : n / 10 = 0
      · rw [hunf', if_pos h, hunf n [], if_pos h]
        rfl
      · have hn10 : n / 10 < n := Nat.div_lt_self (by omega) (by omega)
        rw [hunf', if_neg h, hunf n [], if_neg h]
        have h1 : Nat.toDigitsCore 10 fuel' (n / 10) (Nat.digitChar (n % 10) :: ds) =
            Nat.toDigitsCore 10 (n / 10 + 1) (n / 10) [] ++
              (Nat.digitChar (n % 10) :: ds) :=
          ih fuel' (by omega) (n / 10) _ (by omega)
        have h2 : Nat.toDigitsCore 10 n (n / 10) [Nat.digitChar (n % 10)] =
            Nat.toDigitsCore 10 (n / 10 + 1) (n / 10) [] ++
              [Nat.digitChar (n % 10)] :=
          ih n (by omega) (n / 10) _ (by omega)
        rw [h1, h2]
        simp

theorem toDigits_facts :
    ∀ n : Nat, Nat.toDigits 10 n ≠ [] ∧
      (∀ c ∈ Nat.toDigits 10 n, isDigitCh c = true) ∧
      digitsToNat (Nat.toDigits 10 n) = n := by
  intro n
  induction n using Nat.strong_induction_on with
  | _ n ih =>
    have hmod : n % 10 < 10 := Nat.mod_lt _ (by omega)
    obtain ⟨hd1, hd2⟩ := digitChar_facts (n % 10) hmod
    have hunf : Nat.toDigits 10 n =
        if n / 10 = 0 then [Nat.digitChar (n % 10)]
        else Nat.toDigitsCore 10 n (n / 10) [Nat.digitChar (n % 10)] := by
      show Nat.toDigitsCore 10 (n + 1) n [] = _
      simp [Nat.toDigitsCore]
    by_cases h : n / 10 = 0
    · rw [hunf, if_pos h]
      refine ⟨by simp, by simpa using hd1, ?_⟩
      show digitsToNat ([] ++ [Nat.digitChar (n % 10)]) = n
      have hn : n % 10 = n := by omega
      rw [digitsToNat_append, hd2, hn]
      show 10 * 0 + n = n
      omega
    · have hn10 : n / 10 < n := Nat.div_lt_self (by omega) (by omega)
      rw [hunf, if_neg h,
        toDigitsCore_shift n (n / 10) [Nat.digitChar (n % 10)] (by omega)]
      obtain ⟨ih1, ih2, ih3⟩ := ih (n / 10) hn10
      have htd : Nat.toDigitsCore 10 (n / 10 + 1) (n / 10) [] =
          Nat.toDigits 10 (n / 10) := rfl
      rw [htd]
      refine ⟨by simp, ?_, ?_⟩
      · intro c hc
        rcases List.mem_append.1 hc with hc | hc
        · exact ih2 c hc
        · have : c = Nat.digitChar (n % 10) := by simpa using hc
          rw [this]; exact hd1
      · rw [digitsToNat_append, ih3, hd2]
        omega

theorem toString_nat_toList (n : Nat) : (toString n).toList = Nat.toDigits 10 n :=
  rfl

theorem toLower_eq_self_of_isLowerCh {c : Char} (h : isLowerCh c = true) :
    c.toLower = c := by
  have h' : 97 ≤ c.toNat ∧ c.toNat ≤ 122 := by
    simpa [isLowerCh, Bool.and_eq_true, decide_eq_true_eq] using h
  unfold Char.toLower
  rw [if_neg (by omega)]

theorem pyLower_eq_self {sp : String}
    (hlow : ∀ c ∈ sp.toList, isLowerCh c = true) : pyLower sp = sp := by
  have hmap : sp.toList.map Char.toLower = sp.toList := by
    have h2 : ∀ c ∈ sp.toList, Char.toLower c = id c :=
      fun c hc => toLower_eq_self_of_isLowerCh (hlow c hc)
    rw [List.map_congr_left h2, List.map_id]
  unfold pyLower
  rw [hmap]
  rfl

theorem sanitize_eq_self {name : String}
    (h : ∀ c ∈ name.toList,
      (isWordCh c || c = '-' || c = '_' || c = '.') = true) :
    sanitize_filename name = name := by
  unfold sanitize_filename
  have hmap : name.toList.map
      (fun c => if isWordCh c || c = '-' || c = '_' || c = '.' then c else '_') =
      name.toList.map id :=
    List.map_congr_left (fun c hc => by rw [if_pos (h c hc)]; rfl)
  rw [hmap, List.map_id]
  rfl

theorem toList_mk (l : List Char) : (String.mk l).toList = l := rfl

theorem isWordCh_of_isLowerCh {c : Char} (h : isLowerCh c = true) :
    isWordCh c = true := by
  simp [isWordCh, isLetterCh, h]

theorem isLetterCh_of_isLowerCh {c : Char} (h : isLowerCh c = true) :
    isLetterCh c = true := by
  simp [isLetterCh, h]

theorem isWordCh_of_isDigitCh {c : Char} (h : isDigitCh c = true) :
    isWordCh c = true := by
  simp [isWordCh, h]

/-- C6 (amended): over the ASCII alphabet modelled here, sanitization keeps
every character of `[A-Za-z0-9_.-]` and replaces every other character with
`_` (Python's Unicode `\w` additionally keeps non-ASCII word characters, which
no claim input contains); and for every line number and every speaker whose
lowercased name is a nonempty string of ASCII lowercase letters, the clip
filename `{n}_{lowercased speaker}.wav` passes sanitization unchanged and is
recognized by the assembler's pattern as exactly `(n, lowercased speaker)`.
For speaker names whose lowercased form contains a digit or other non-letter
(e.g. `B2`), recognition fails — see the counterexample. -/
theorem c6_sanitize_and_recognition (n : Nat) (sp : String)
    (hne : sp.toList ≠ [])
    (hlow : ∀ c ∈ (pyLower sp).toList, isLowerCh c = true) :
    (∀ name : String,
      (sanitize_filename name).toList.length = name.toList.length) ∧
    (∀ (name : String) (k : Nat) (hk1 : k < (sanitize_filename name).toList.length)
        (hk2 : k < name.toList.length),
      (sanitize_filename name).toList.get ⟨k, hk1⟩ =
        if isWordCh (name.toList.get ⟨k, hk2⟩) ||
            name.toList.get ⟨k, hk2⟩ = '-' || name.toList.get ⟨k, hk2⟩ = '_' ||
            name.toList.get ⟨k, hk2⟩ = '.'
        then name.toList.get ⟨k, hk2⟩ else '_') ∧
    sanitize_filename (toString n ++ "_" ++ pyLower sp ++ ".wav") =
      toString n ++ "_" ++ pyLower sp ++ ".wav" ∧
    parseClipName (toString n ++ "_" ++ pyLower sp ++ ".wav") =
      some (n, pyLower sp) := by
  obtain ⟨hD1, hD2, hD3⟩ := toDigits_facts n
  have hchars : (toString n ++ "_" ++ pyLower sp ++ ".wav").toList =
      Nat.toDigits 10 n ++ '_' :: ((pyLower sp).toList ++ ['.', 'w', 'a', 'v']) := by
    show Nat.toDigits 10 n ++ ['_'] ++ (pyLower sp).toList ++ ['.', 'w', 'a', 'v'] = _
    simp
  have hLne : (pyLower sp).toList ≠ [] := by
    unfold pyLower
    simpa [List.map_eq_nil_iff] using hne
  have hall : ∀ c ∈ (toString n ++ "_" ++ pyLower sp ++ ".wav").toList,
      (isWordCh c || c = '-' || c = '_' || c = '.') = true := by
    rw [hchars]
    intro c hc
    rcases List.mem_append.1 hc with hc | hc
    · simp [isWordCh_of_isDigitCh (hD2 c hc)]
    · rcases List.mem_cons.1 hc with rfl | hc
      · decide
      · rcases List.mem_append.1 hc with hc | hc
        · simp [isWordCh_of_isLowerCh (hlow c hc)]
        · simp only [List.mem_cons, List.not_mem_nil, or_false] at hc
          rcases hc with rfl | rfl | rfl | rfl <;> decide
  have hsan : sanitize_filename (toString n ++ "_" ++ pyLower sp ++ ".wav") =
      toString n ++ "_" ++ pyLower sp ++ ".wav" := sanitize_eq_self hall
  refine ⟨?_, ?_, hsan, ?_⟩
  · intro name
    unfold sanitize_filename
    show (name.toList.map _).length = _
    rw [List.length_map]
  · intro name k hk1 hk2
    unfold sanitize_filename
    simp only [toList_mk, List.get_eq_getElem, List.getElem_map]
  · have htake : (toString n ++ "_" ++ pyLower sp ++ ".wav").toList.takeWhile
        isDigitCh = Nat.toDigits 10 n := by
      rw [hchars]
      exact takeWhile_append_cons _ _ '_' _ hD2 (by decide)
    have hdrop : (toString n ++ "_" ++ pyLower sp ++ ".wav").toList.dropWhile
        isDigitCh = '_' :: ((pyLower sp).toList ++ ['.', 'w', 'a', 'v']) := by
      rw [hchars]
      exact dropWhile_append_cons _ _ '_' _ hD2 (by decide)
    have hLlet : ∀ c ∈ (pyLower sp).toList, isLetterCh c = true :=
      fun c hc => isLetterCh_of_isLowerCh (hlow c hc)
    have htake2 : ((pyLower sp).toList ++ ['.', 'w', 'a', 'v']).takeWhile
        isLetterCh = (pyLower sp).toList := by
      show ((pyLower sp).toList ++ '.' :: ['w', 'a', 'v']).takeWhile isLetterCh = _
      exact takeWhile_append_cons _ _ '.' _ hLlet (by decide)
    have hdrop2 : ((pyLower sp).toList ++ ['.', 'w', 'a', 'v']).dropWhile
        isLetterCh = ['.', 'w', 'a', 'v'] := by
      show ((pyLower sp).toList ++ '.' :: ['w', 'a', 'v']).dropWhile isLetterCh = _
      exact dropWhile_append_cons _ _ '.' _ hLlet (by decide)
    have hlowmap : (pyLower sp).toList.map Char.toLower = (pyLower sp).toList := by
      have h2 : ∀ c ∈ (pyLower sp).toList, Char.toLower c = id c :=
        fun c hc => toLower_eq_self_of_isLowerCh (hlow c hc)
      rw [List.map_congr_left h2, List.map_id]
    simp only [parseClipName, htake, hdrop, htake2, hdrop2]
    rw [if_neg hD1, if_neg hLne]
    rw [if_pos (by decide)]
    rw [hD3, hlowmap]
    rfl

/-- C6 counterexample: for the speaker `B2` on script line 1 the driver writes
the clip file `1_b2.wav`; sanitization leaves that name unchanged (every
character is a word character), yet the assembler's pattern does not recognize
it — the speaker token `[a-zA-Z]+` cannot contain the digit — so the sanitized
filename is not in the form the assembler recognizes, even under the
end-anchored reading. -/
theorem c6_counterexample :
    sanitize_filename "1_b2.wav" = "1_b2.wav" ∧
    (process (readlines "[B2]: hi\n")
        (fun s => if s = "B2" then some "v1" else none)
        ttsAlwaysOk).written.map Clip.filename = ["1_b2.wav"] ∧
    parseClipName "1_b2.wav" = none ∧
    anchoredClipName "1_b2.wav" = none := by decide

/-- Witness for `c6_sanitize_and_recognition` at line number 12 and speaker
`ab`. -/
theorem c6_sanitize_and_recognition_witness :
    (("ab" : String).toList ≠ [] ∧
      ∀ c ∈ (pyLower "ab").toList, isLowerCh c = true) ∧
    ((∀ name : String,
        (sanitize_filename name).toList.length = name.toList.length) ∧
     (∀ (name : String) (k : Nat) (hk1 : k < (sanitize_filename name).toList.length)
         (hk2 : k < name.toList.length),
       (sanitize_filename name).toList.get ⟨k, hk1⟩ =
         if isWordCh (name.toList.get ⟨k, hk2⟩) ||
             name.toList.get ⟨k, hk2⟩ = '-' || name.toList.get ⟨k, hk2⟩ = '_' ||
             name.toList.get ⟨k, hk2⟩ = '.'
         then name.toList.get ⟨k, hk2⟩ else '_') ∧
     sanitize_filename (toString 12 ++ "_" ++ pyLower "ab" ++ ".wav") =
       toString 12 ++ "_" ++ pyLower "ab" ++ ".wav" ∧
     parseClipName (toString 12 ++ "_" ++ pyLower "ab" ++ ".wav") =
       some (12, pyLower "ab")) :=
  ⟨⟨by decide, by decide⟩,
   c6_sanitize_and_recognition 12 "ab" (by decide) (by decide)⟩

end Podcast
